import Mathlib

/-!
Verification development for the Rusticos in-memory key-value store.

The definitions below are a shallow embedding of the store's core:

* `TtlHashMap` — the TTL-aware keyspace (`src/entities/ttl_hash_map.rs`),
  with the three internal maps modelled as association lists and wall-clock
  time modelled as a natural number of seconds since the epoch, passed
  explicitly as a `now` parameter wherever the source calls
  `SystemTime::now()`.
* the snapshot codec (`serialize` / `deserialize` and their helpers from the
  same file), with Rust `String` modelled as its UTF-8 byte sequence
  (`List Nat`, each entry a byte) and `Vec<u8>` as `List Nat`.
* the command executor (`src/service/redis.rs`), with `Redis` state, the
  pub/sub broker (sinks modelled as numeric identifiers plus a transcript of
  the messages sent to them), and the command methods the theorems exercise.

Fallible Rust code returns `Option`/`Except`; a reachable Rust `panic!`
(`unwrap` of `None`, out-of-bounds index) is modelled as the value `none` of
an `Option`-returning embedding.
-/

/-! ## Association lists (model of `std::collections::HashMap`) -/

/-- Lookup in an association list: the value paired with the first matching
key, mirroring `HashMap::get`. -/
def alookup {K V : Type} [DecidableEq K] : List (K × V) → K → Option V
  | [], _ => none
  | (a, b) :: t, k => if a = k then some b else alookup t k

/-- Remove every binding of a key, mirroring `HashMap::remove` (a hash map
holds at most one binding per key, so the model erases them all). -/
def aerase {K V : Type} [DecidableEq K] : List (K × V) → K → List (K × V)
  | [], _ => []
  | (a, b) :: t, k => if a = k then aerase t k else (a, b) :: aerase t k

/-- Overwrite a key's binding, mirroring `HashMap::insert`. -/
def aset {K V : Type} [DecidableEq K] (l : List (K × V)) (k : K) (v : V) : List (K × V) :=
  aerase l k ++ [(k, v)]

theorem alookup_nil {K V : Type} [DecidableEq K] (k : K) :
    alookup ([] : List (K × V)) k = none := rfl

theorem alookup_cons {K V : Type} [DecidableEq K] (a : K) (b : V) (t : List (K × V)) (k : K) :
    alookup ((a, b) :: t) k = if a = k then some b else alookup t k := rfl

theorem alookup_append {K V : Type} [DecidableEq K] (l₁ l₂ : List (K × V)) (k : K) :
    alookup (l₁ ++ l₂) k =
      match alookup l₁ k with
      | some v => some v
      | none => alookup l₂ k := by
  induction l₁ with
  | nil => simp [alookup]
  | cons p t ih =>
    obtain ⟨a, b⟩ := p
    by_cases h : a = k <;> simp [alookup, h, ih]

theorem alookup_eq_none_of_not_mem {K V : Type} [DecidableEq K]
    {l : List (K × V)} {k : K} (h : k ∉ l.map Prod.fst) :
    alookup l k = none := by
  induction l with
  | nil => rfl
  | cons p t ih =>
    obtain ⟨a, b⟩ := p
    simp only [List.map_cons, List.mem_cons] at h
    push_neg at h
    have ha : ¬ a = k := fun he => h.1 he.symm
    simp [alookup, ha, ih h.2]

theorem mem_of_alookup_eq_some {K V : Type} [DecidableEq K]
    {l : List (K × V)} {k : K} {v : V} (h : alookup l k = some v) :
    k ∈ l.map Prod.fst := by
  induction l with
  | nil => simp [alookup] at h
  | cons p t ih =>
    obtain ⟨a, b⟩ := p
    by_cases ha : a = k
    · simp [ha]
    · simp only [alookup, ha, if_false] at h
      simp [ih h]

theorem aerase_eq_of_alookup_eq_none {K V : Type} [DecidableEq K]
    {l : List (K × V)} {k : K} (h : alookup l k = none) :
    aerase l k = l := by
  induction l with
  | nil => rfl
  | cons p t ih =>
    obtain ⟨a, b⟩ := p
    by_cases ha : a = k
    · simp [alookup, ha] at h
    · simp only [alookup, ha, if_false] at h
      simp [aerase, ha, ih h]

theorem alookup_aerase_self {K V : Type} [DecidableEq K] (l : List (K × V)) (k : K) :
    alookup (aerase l k) k = none := by
  induction l with
  | nil => rfl
  | cons p t ih =>
    obtain ⟨a, b⟩ := p
    by_cases ha : a = k <;> simp [aerase, ha, alookup, ih]

theorem alookup_aerase_ne {K V : Type} [DecidableEq K] (l : List (K × V)) {k k' : K}
    (h : k ≠ k') :
    alookup (aerase l k) k' = alookup l k' := by
  induction l with
  | nil => rfl
  | cons p t ih =>
    obtain ⟨a, b⟩ := p
    by_cases ha : a = k
    · subst ha
      have hc : ¬ a = k' := h
      simp [aerase, alookup, hc, ih]
    · have hc : ¬ k' = k := fun hc => h hc.symm
      by_cases hb : a = k' <;> simp [aerase, ha, alookup, hb, hc, ih]

theorem alookup_aset_self {K V : Type} [DecidableEq K] (l : List (K × V)) (k : K) (v : V) :
    alookup (aset l k v) k = some v := by
  simp [aset, alookup_append, alookup_aerase_self, alookup]

theorem alookup_aset_ne {K V : Type} [DecidableEq K] (l : List (K × V)) {k k' : K} (v : V)
    (h : k ≠ k') :
    alookup (aset l k v) k' = alookup l k' := by
  simp only [aset, alookup_append, alookup_aerase_ne l h, alookup,
    fun hc : k = k' => h hc, if_false]
  cases alookup l k' <;> rfl

/-! ## The TTL-aware keyspace (`TtlHashMap` from `src/entities/ttl_hash_map.rs`)

`SystemTime` is modelled as a natural number of whole seconds since
`UNIX_EPOCH`; every operation that reads the clock takes `now` explicitly. -/

structure TtlHashMap (K V : Type) where
  store : List (K × V)
  ttls : List (K × Nat)
  last_access : List (K × Nat)
deriving DecidableEq

namespace TtlHashMap

variable {K V : Type} [DecidableEq K]

/-- `TtlHashMap::new`. -/
def new : TtlHashMap K V := ⟨[], [], []⟩

/-- `expired`: a stored deadline has passed (`ttl.elapsed().is_ok()`, which
holds exactly when `ttl ≤ now`). -/
def expired (m : TtlHashMap K V) (k : K) (now : Nat) : Bool :=
  match alookup m.ttls k with
  | some t => t ≤ now
  | none => false

/-- `remove`: drop the key from all three maps (the returned prior value is
recovered by callers via `alookup` where they need it). -/
def remove (m : TtlHashMap K V) (k : K) : TtlHashMap K V :=
  ⟨aerase m.store k, aerase m.ttls k, aerase m.last_access k⟩

/-- `contains_key`: presence check that lazily removes an expired entry;
returns the answer together with the possibly-updated map. -/
def contains_key (m : TtlHashMap K V) (k : K) (now : Nat) : Bool × TtlHashMap K V :=
  match alookup m.store k with
  | some _ => if m.expired k now then (false, m.remove k) else (true, m)
  | none => (false, m)

/-- `update_last_access`: refresh the access timestamp, returning the time
elapsed since the previous access (clamped at zero, like
`elapsed().unwrap_or(Duration::from_secs(0))`). -/
def update_last_access (m : TtlHashMap K V) (k : K) (now : Nat) :
    Option Nat × TtlHashMap K V :=
  let (c, m1) := m.contains_key k now
  if c then
    ((alookup m1.last_access k).map (fun prev => now - prev),
      { m1 with last_access := aset m1.last_access k now })
  else (none, m1)

/-- `insert`: overwrite the binding, dropping any prior deadline and stamping
the access time. -/
def insert (m : TtlHashMap K V) (k : K) (v : V) (now : Nat) : TtlHashMap K V :=
  let m1 := m.remove k
  { m1 with last_access := aset m1.last_access k now, store := aset m1.store k v }

/-- `get`: read a value, removing it first if expired, and refreshing the
access time on success. -/
def get (m : TtlHashMap K V) (k : K) (now : Nat) : Option V × TtlHashMap K V :=
  if m.expired k now then (none, m.remove k)
  else
    let m1 := (m.update_last_access k now).2
    (alookup m1.store k, m1)

/-- `get_mut` behaves as `get` for the read; callers that mutate through the
returned reference are modelled by updating `store` at the key afterwards. -/
def get_mut (m : TtlHashMap K V) (k : K) (now : Nat) : Option V × TtlHashMap K V :=
  m.get k now

/-- `set_ttl_absolute`: install a deadline if the key is live; the returned
prior deadline uses `0` (epoch) as the "was persistent" sentinel. -/
def set_ttl_absolute (m : TtlHashMap K V) (k : K) (t : Nat) (now : Nat) :
    Option Nat × TtlHashMap K V :=
  let (c, m1) := m.contains_key k now
  if c then (some ((alookup m1.ttls k).getD 0), { m1 with ttls := aset m1.ttls k t })
  else (none, m1)

/-- `set_ttl_relative`: deadline `now + duration`. -/
def set_ttl_relative (m : TtlHashMap K V) (k : K) (d : Nat) (now : Nat) :
    Option Nat × TtlHashMap K V :=
  m.set_ttl_absolute k (now + d) now

/-- `delete_ttl`: clear the deadline of a live key (removing the whole entry
if it has already expired). -/
def delete_ttl (m : TtlHashMap K V) (k : K) (now : Nat) :
    Option Nat × TtlHashMap K V :=
  if m.expired k now then (none, m.remove k)
  else (alookup m.ttls k, { m with ttls := aerase m.ttls k })

/-- `get_ttl`: remaining seconds (clamped at zero), `some 0` for a live
persistent key, `none` for a missing key. -/
def get_ttl (m : TtlHashMap K V) (k : K) (now : Nat) :
    Option Nat × TtlHashMap K V :=
  let (c, m1) := m.contains_key k now
  if c then
    (some (match alookup m1.ttls k with
      | some t => t - now
      | none => 0), m1)
  else (none, m1)

/-- `len`: size of the value store, with no expiration sweep. -/
def len (m : TtlHashMap K V) : Nat := m.store.length

/-- `keys`: all stored keys, with no expiration filter. -/
def keys (m : TtlHashMap K V) : List K := m.store.map Prod.fst

end TtlHashMap

/-! ## Bit-arithmetic helpers

The codec recombines big-endian bytes with `<<` and `|`; these lemmas turn
those operations into plain arithmetic on disjoint ranges. -/

theorem lor_div_pow (a b k : Nat) : (a ||| b) / 2 ^ k = a / 2 ^ k ||| b / 2 ^ k := by
  induction k with
  | zero => simp
  | succ n ih =>
    have h2 : (2 : Nat) ^ (n + 1) = 2 ^ n * 2 := by ring
    simp only [h2, ← Nat.div_div_eq_div_mul, ih, Nat.or_div_two]

theorem lor_mod_pow (a b k : Nat) : (a ||| b) % 2 ^ k = a % 2 ^ k ||| b % 2 ^ k := by
  have h := Nat.and_distrib_right a b (2 ^ k - 1)
  simpa [Nat.and_pow_two_sub_one_eq_mod] using h

theorem lor_eq_add_of_disjoint {k a b : Nat} (ha : a % 2 ^ k = 0) (hb : b < 2 ^ k) :
    a ||| b = a + b := by
  have hmod : (a ||| b) % 2 ^ k = b := by
    rw [lor_mod_pow, ha, Nat.mod_eq_of_lt hb]
    simp
  have hdiv : (a ||| b) / 2 ^ k = a / 2 ^ k := by
    rw [lor_div_pow, Nat.div_eq_of_lt hb]
    simp
  have hx := Nat.div_add_mod (a ||| b) (2 ^ k)
  have hy := Nat.div_add_mod a (2 ^ k)
  rw [hmod, hdiv] at hx
  omega

theorem shiftLeft_lor_eq {k b : Nat} (a : Nat) (hb : b < 2 ^ k) :
    (a <<< k) ||| b = a * 2 ^ k + b := by
  rw [Nat.shiftLeft_eq, lor_eq_add_of_disjoint (Nat.mul_mod_left a (2 ^ k)) hb]

/-! ## Snapshot codec (`src/entities/ttl_hash_map.rs`, lines 155-345)

Rust `String` is modelled as its UTF-8 byte sequence `List Nat`; the codec
operates on byte streams `List Nat`.  The `Drain` iterator is modelled by
state passing: each decoder returns the value read and the unconsumed tail. -/

/-- A Rust `String` as its UTF-8 byte sequence. -/
abbrev BStr := List Nat

/-- `RedisElement` (modelled at the byte level for the codec; the executor
uses the `String`-level `RedisElement` below).  `Set` is modelled as the list
of members in the `HashSet`'s iteration order. -/
inductive RedisElementB : Type
  | string (s : BStr)
  | list (l : List BStr)
  | set (l : List BStr)
  | nil
deriving DecidableEq

def OP_EOF : Nat := 0xff
def OP_EXPIRETIME : Nat := 0xfd
def OP_RESIZEDB : Nat := 0xfb
def WRONG_ELEMENT_TYPE : Nat := 3

namespace TtlHashMap

/-- The keyspace type the codec operates on. -/
abbrev B := TtlHashMap BStr RedisElementB

/-- `bytes_as_u32_be`. -/
def bytes_as_u32_be (b0 b1 b2 b3 : Nat) : Nat :=
  (b0 <<< 24) ||| (b1 <<< 16) ||| (b2 <<< 8) ||| b3

/-- `u32::to_be_bytes` of `n % 2^32` (the `as u32` cast truncates). -/
def be32 (n : Nat) : List Nat :=
  [n >>> 24 % 256, n >>> 16 % 256, n >>> 8 % 256, n % 256]

/-- `read_int`: consume four bytes, big-endian. -/
def read_int (s : List Nat) : Option (Nat × List Nat) :=
  match s with
  | b0 :: b1 :: b2 :: b3 :: r => some (bytes_as_u32_be b0 b1 b2 b3, r)
  | _ => none

/-- `length_encode`: the 1-, 2- or 5-byte variable-width length form. -/
def length_encode (length : Nat) : List Nat :=
  if length < 64 then [length]
  else if length < 16384 then [0x40 ||| (length >>> 8), length % 256]
  else [0x80, length >>> 24 % 256, length >>> 16 % 256, length >>> 8 % 256, length % 256]

/-- `length_decode` (an empty stream yields the quirkish `unwrap_or(5)` first
byte, exactly as in the source). -/
def length_decode (s : List Nat) : Option (Nat × List Nat) :=
  let first_byte := s.headD 5
  let s1 := s.tail
  match first_byte >>> 6 with
  | 0 => some (first_byte, s1)
  | 1 =>
    match s1 with
    | b :: r => some (bytes_as_u32_be 0 0 (first_byte &&& 63) b, r)
    | [] => none
  | 2 => read_int s1
  | _ => none

/-- Read `n` raw bytes off the stream (the byte-by-byte `for _ in 0..len`
loop of `string_decode`). -/
def takeBytes : Nat → List Nat → Option (List Nat × List Nat)
  | 0, s => some ([], s)
  | _ + 1, [] => none
  | n + 1, b :: r =>
    match takeBytes n r with
    | some (bs, rest) => some (b :: bs, rest)
    | none => none

/-- UTF-8 validity of a byte sequence (the check performed by
`std::str::from_utf8`), as a state machine: `need` pending continuation
bytes, the next of which must lie in `[lo, hi]`. -/
def utf8Go : List Nat → Nat → Nat → Nat → Bool
  | [], need, _, _ => need = 0
  | b :: rest, 0, _, _ =>
    if b ≤ 0x7f then utf8Go rest 0 0 0
    else if 0xc2 ≤ b ∧ b ≤ 0xdf then utf8Go rest 1 0x80 0xbf
    else if b = 0xe0 then utf8Go rest 2 0xa0 0xbf
    else if (0xe1 ≤ b ∧ b ≤ 0xec) ∨ b = 0xee ∨ b = 0xef then utf8Go rest 2 0x80 0xbf
    else if b = 0xed then utf8Go rest 2 0x80 0x9f
    else if b = 0xf0 then utf8Go rest 3 0x90 0xbf
    else if 0xf1 ≤ b ∧ b ≤ 0xf3 then utf8Go rest 3 0x80 0xbf
    else if b = 0xf4 then utf8Go rest 3 0x80 0x8f
    else false
  | b :: rest, need + 1, lo, hi =>
    if lo ≤ b ∧ b ≤ hi then utf8Go rest need 0x80 0xbf else false

/-- `from_utf8(..).is_ok()`. -/
def utf8Check (s : List Nat) : Bool := utf8Go s 0 0 0

/-- `string_decode`: length, then that many bytes, validated as UTF-8. -/
def string_decode (s : List Nat) : Option (BStr × List Nat) :=
  match length_decode s with
  | none => none
  | some (len, r) =>
    match takeBytes len r with
    | none => none
    | some (bytes, rest) => if utf8Check bytes then some (bytes, rest) else none

/-- `string_encode`: length header then raw bytes (`string.len()` is the
byte length, and the model string is its byte sequence). -/
def string_encode (s : BStr) : List Nat :=
  length_encode s.length ++ s

/-- `list_encode`: element count then each element string-encoded. -/
def list_encode (l : List BStr) : List Nat :=
  length_encode l.length ++ (l.map string_encode).flatten

/-- The element-reading loop of `list_decode`. -/
def listDecodeAux : Nat → List Nat → Option (List BStr × List Nat)
  | 0, s => some ([], s)
  | n + 1, s =>
    match string_decode s with
    | none => none
    | some (e, r) =>
      match listDecodeAux n r with
      | none => none
      | some (es, rest) => some (e :: es, rest)

/-- `list_decode`. -/
def list_decode (s : List Nat) : Option (List BStr × List Nat) :=
  match length_decode s with
  | none => none
  | some (len, r) => listDecodeAux len r

/-- `value_type_encode`. -/
def value_type_encode : RedisElementB → Nat
  | .string _ => 0
  | .list _ => 1
  | .set _ => 2
  | .nil => WRONG_ELEMENT_TYPE

/-- `value_encode` (a `Set` is written as the list of its members in
iteration order; the catch-all emits nothing). -/
def value_encode : RedisElementB → List Nat
  | .string s => string_encode s
  | .list l => list_encode l
  | .set l => list_encode l
  | .nil => []

/-- `value_decode`. -/
def value_decode (value_type : Nat) (s : List Nat) : Option (RedisElementB × List Nat) :=
  match value_type with
  | 0 =>
    match string_decode s with
    | some (v, r) => some (.string v, r)
    | none => none
  | 1 =>
    match list_decode s with
    | some (v, r) => some (.list v, r)
    | none => none
  | 2 =>
    match list_decode s with
    | some (v, r) => some (.set v, r)
    | none => none
  | _ => none

/-- The per-entry body of `serialize`'s `for (key, value) in store` loop:
an optional `EXPIRETIME` record, then the value record (skipped for the
out-of-range `Nil` type). -/
def serializeEntries : List (BStr × RedisElementB) → List (BStr × Nat) → List Nat
  | [], _ => []
  | (k, v) :: rest, ttls =>
    (match alookup ttls k with
     | some t => OP_EXPIRETIME :: be32 (t % 2 ^ 32)
     | none => []) ++
    (if value_type_encode v ≠ WRONG_ELEMENT_TYPE then
      value_type_encode v :: (string_encode k ++ value_encode v)
     else []) ++
    serializeEntries rest ttls

/-- `serialize`: `RESIZEDB` header with the two store sizes, the entry
records, then `EOF`. -/
def serialize (m : B) : List Nat :=
  OP_RESIZEDB ::
    (length_encode m.store.length ++ length_encode m.ttls.length ++
      serializeEntries m.store m.ttls ++ [OP_EOF])

/-- `load`: the record-consuming loop of deserialization.  `fuel` bounds the
iteration count; every iteration consumes at least the opcode byte, so any
`fuel ≥ s.length` reproduces the Rust `while let` loop exactly.  Note the
faithful quirk: when an `EXPIRETIME` deadline is in the past the source skips
only the `if` body, so the following value record is re-parsed from the top
of the loop (and the `EOF` arm is a no-op `()`). -/
def load (fuel : Nat) (m : B) (now : Nat) (s : List Nat) : Except String B :=
  match fuel, s with
  | _, [] => .ok m
  | 0, _ :: _ => .error "out of fuel"
  | fuel + 1, op_code :: rest =>
    if op_code = OP_EXPIRETIME then
      match read_int rest with
      | none => .error "Corrupt expiry time"
      | some (secs, r1) =>
        if now < secs then
          match r1 with
          | [] => .error "Corrupt value type"
          | value_type :: r2 =>
            match string_decode r2 with
            | none => .error "Corrupt key"
            | some (key, r3) =>
              match value_decode value_type r3 with
              | none => .error "Corrupt value"
              | some (value, r4) =>
                load fuel (((m.insert key value now).set_ttl_absolute key secs now).2) now r4
        else load fuel m now r1
    else if op_code = OP_EOF then load fuel m now rest
    else
      match string_decode rest with
      | none => .error "Corrupt key"
      | some (key, r1) =>
        match value_decode op_code r1 with
        | none => .error "Corrupt value"
        | some (value, r2) => load fuel (m.insert key value now) now r2

/-- `deserialize`: dispatch on the first byte (`unwrap_or(0)` on an empty
stream), read the two capacity hints, then run `load` over the rest. -/
def deserialize (s : List Nat) (now : Nat) : Except String B :=
  match s with
  | [] => .error "Found unknown OP code."
  | b :: rest =>
    if b = OP_RESIZEDB then
      match length_decode rest with
      | none => .error "Corrupt store size"
      | some (_, r1) =>
        match length_decode r1 with
        | none => .error "Corrupt ttl size"
        | some (_, r2) => load r2.length new now r2
    else if b = OP_EOF then .ok new
    else .error "Found unknown OP code."

end TtlHashMap

/-! ## Codec round-trip lemmas -/

namespace TtlHashMap

theorem two_pow_eights :
    (2 : Nat) ^ 8 = 256 ∧ (2 : Nat) ^ 16 = 65536 ∧ (2 : Nat) ^ 24 = 16777216 := by
  norm_num

theorem bytes_as_u32_be_eq {b0 b1 b2 b3 : Nat} (_h0 : b0 < 256) (h1 : b1 < 256)
    (h2 : b2 < 256) (h3 : b3 < 256) :
    bytes_as_u32_be b0 b1 b2 b3 = ((b0 * 256 + b1) * 256 + b2) * 256 + b3 := by
  obtain ⟨p8, p16, p24⟩ := two_pow_eights
  unfold bytes_as_u32_be
  rw [Nat.or_assoc, Nat.or_assoc]
  rw [shiftLeft_lor_eq b2 (show b3 < 2 ^ 8 by omega)]
  rw [shiftLeft_lor_eq b1 (show b2 * 2 ^ 8 + b3 < 2 ^ 16 by rw [p8]; omega)]
  rw [shiftLeft_lor_eq b0
    (show b1 * 2 ^ 16 + (b2 * 2 ^ 8 + b3) < 2 ^ 24 by rw [p8, p16]; omega)]
  rw [p8, p16, p24]
  ring

theorem read_int_be32 (t : Nat) (r : List Nat) :
    read_int (be32 t ++ r) = some (t % 2 ^ 32, r) := by
  obtain ⟨p8, p16, p24⟩ := two_pow_eights
  have p32 : (2 : Nat) ^ 32 = 4294967296 := by norm_num
  simp only [be32, List.cons_append, List.nil_append, read_int]
  rw [bytes_as_u32_be_eq (Nat.mod_lt _ (by omega)) (Nat.mod_lt _ (by omega))
    (Nat.mod_lt _ (by omega)) (Nat.mod_lt _ (by omega))]
  simp only [Nat.shiftRight_eq_div_pow, p8, p16, p24, p32]
  congr 1
  congr 1
  omega

theorem length_decode_encode {n : Nat} (h : n < 2 ^ 32) (r : List Nat) :
    length_decode (length_encode n ++ r) = some (n, r) := by
  obtain ⟨p8, p16, p24⟩ := two_pow_eights
  by_cases h64 : n < 64
  · simp only [length_encode, if_pos h64, List.cons_append, List.nil_append]
    have hs : n >>> 6 = 0 := by
      rw [Nat.shiftRight_eq_div_pow]
      omega
    simp [length_decode, hs]
  · by_cases h16k : n < 16384
    · simp only [length_encode, if_neg h64, if_pos h16k, List.cons_append, List.nil_append]
      have hdiv : n >>> 8 = n / 256 := by rw [Nat.shiftRight_eq_div_pow, p8]
      have hlt : n / 256 < 2 ^ 6 := by omega
      have hfb : 0x40 ||| (n >>> 8) = 64 + n / 256 := by
        rw [hdiv]
        have : (64 : Nat) % 2 ^ 6 = 0 := by norm_num
        simpa using lor_eq_add_of_disjoint this hlt
      have hs : (64 + n / 256) >>> 6 = 1 := by
        rw [Nat.shiftRight_eq_div_pow]
        omega
      have hand : (64 + n / 256) &&& 63 = n / 256 := by
        have h63 : (63 : Nat) = 2 ^ 6 - 1 := by norm_num
        rw [h63, Nat.and_pow_two_sub_one_eq_mod]
        omega
      simp only [length_decode, List.headD, List.tail, hfb, hs]
      rw [hand]
      rw [bytes_as_u32_be_eq (by omega) (by omega) (by omega) (by omega)]
      simp only [Option.some.injEq, Prod.mk.injEq]
      exact ⟨by omega, trivial⟩
    · simp only [length_encode, if_neg h64, if_neg h16k, List.cons_append, List.nil_append]
      have hs : (0x80 : Nat) >>> 6 = 2 := by decide
      simp only [length_decode, List.headD, List.tail, hs]
      have hr := read_int_be32 n r
      simp only [be32, List.cons_append, List.nil_append] at hr
      rw [hr, Nat.mod_eq_of_lt h]

theorem takeBytes_append (l r : List Nat) :
    takeBytes l.length (l ++ r) = some (l, r) := by
  induction l with
  | nil => rfl
  | cons b t ih => simp [takeBytes, ih]

theorem string_decode_encode {s : BStr} (hutf : utf8Check s = true)
    (hlen : s.length < 2 ^ 32) (r : List Nat) :
    string_decode (string_encode s ++ r) = some (s, r) := by
  simp only [string_encode, List.append_assoc, string_decode]
  rw [length_decode_encode hlen]
  dsimp only
  rw [takeBytes_append]
  dsimp only
  rw [hutf]
  simp

theorem listDecodeAux_encode {l : List BStr}
    (hv : ∀ e ∈ l, utf8Check e = true ∧ e.length < 2 ^ 32) (r : List Nat) :
    listDecodeAux l.length ((l.map string_encode).flatten ++ r) = some (l, r) := by
  induction l with
  | nil => rfl
  | cons e t ih =>
    have he := hv e (by simp)
    have ht : ∀ x ∈ t, utf8Check x = true ∧ x.length < 2 ^ 32 :=
      fun x hx => hv x (by simp [hx])
    simp only [List.map_cons, List.flatten_cons, List.length_cons, List.append_assoc,
      listDecodeAux]
    rw [string_decode_encode he.1 he.2]
    dsimp only
    rw [ih ht]

theorem list_decode_encode {l : List BStr} (hn : l.length < 2 ^ 32)
    (hv : ∀ e ∈ l, utf8Check e = true ∧ e.length < 2 ^ 32) (r : List Nat) :
    list_decode (list_encode l ++ r) = some (l, r) := by
  simp only [list_encode, List.append_assoc, list_decode]
  rw [length_decode_encode hn]
  dsimp only
  rw [listDecodeAux_encode hv]

/-- Validity of a byte string for the codec: well-formed UTF-8 and encodable
length. -/
def validStr (s : BStr) : Prop := utf8Check s = true ∧ s.length < 2 ^ 32

instance : DecidablePred validStr := fun s => by
  unfold validStr
  infer_instance

/-- Validity of a stored value for the codec round trip: a `Str`, `List` or
`Set` whose strings are valid. -/
def validValue : RedisElementB → Prop
  | .string s => validStr s
  | .list l => l.length < 2 ^ 32 ∧ ∀ e ∈ l, validStr e
  | .set l => l.length < 2 ^ 32 ∧ ∀ e ∈ l, validStr e
  | .nil => False

instance : DecidablePred validValue := fun v => by
  cases v <;> unfold validValue <;> infer_instance

theorem value_decode_encode {v : RedisElementB} (hv : validValue v) (r : List Nat) :
    value_decode (value_type_encode v) (value_encode v ++ r) = some (v, r) := by
  cases v with
  | string s =>
    obtain ⟨h1, h2⟩ := hv
    simp only [value_type_encode, value_encode, value_decode,
      string_decode_encode h1 h2]
  | list l =>
    obtain ⟨h1, h2⟩ := hv
    simp only [value_type_encode, value_encode, value_decode,
      list_decode_encode h1 h2]
  | set l =>
    obtain ⟨h1, h2⟩ := hv
    simp only [value_type_encode, value_encode, value_decode,
      list_decode_encode h1 h2]
  | nil => exact absurd hv (by simp [validValue])

end TtlHashMap

namespace TtlHashMap

theorem mem_pair_of_alookup_eq_some {K V : Type} [DecidableEq K]
    {l : List (K × V)} {k : K} {v : V} (h : alookup l k = some v) : (k, v) ∈ l := by
  induction l with
  | nil => simp [alookup] at h
  | cons p t ih =>
    obtain ⟨a, b⟩ := p
    by_cases ha : a = k
    · subst ha
      have hb : b = v := by simpa [alookup] using h
      subst hb
      simp
    · simp only [alookup, ha, if_false] at h
      simp [ih h]

theorem value_type_encode_lt {v : RedisElementB} (hv : validValue v) :
    value_type_encode v < 3 := by
  cases v with
  | string s => simp [value_type_encode]
  | list l => simp [value_type_encode]
  | set l => simp [value_type_encode]
  | nil => exact absurd hv (by simp [validValue])

theorem insert_store_of_fresh {K V : Type} [DecidableEq K]
    (m : TtlHashMap K V) (k : K) (v : V) (now : Nat) (h : alookup m.store k = none) :
    (m.insert k v now).store = m.store ++ [(k, v)] := by
  simp [insert, remove, aset, aerase_eq_of_alookup_eq_none h,
    aerase_eq_of_alookup_eq_none (alookup_aerase_self m.store k)]

theorem insert_ttls {K V : Type} [DecidableEq K]
    (m : TtlHashMap K V) (k : K) (v : V) (now : Nat) :
    (m.insert k v now).ttls = aerase m.ttls k := by
  simp [insert, remove]

theorem set_ttl_absolute_of_live {K V : Type} [DecidableEq K]
    (m : TtlHashMap K V) (k : K) (t now : Nat) {v : V}
    (hs : alookup m.store k = some v) (ht : alookup m.ttls k = none) :
    (m.set_ttl_absolute k t now).2 = { m with ttls := aset m.ttls k t } := by
  simp [set_ttl_absolute, contains_key, hs, expired, ht]

/-- The state transformation `load` performs on the records written for a
given entry list: insert each value, then apply its deadline if the
serializer recorded one. -/
def loadFold (now : Nat) (ttls : List (BStr × Nat)) : B → List (BStr × RedisElementB) → B
  | acc, [] => acc
  | acc, (k, v) :: rest =>
    loadFold now ttls
      (match alookup ttls k with
       | some t => ((acc.insert k v now).set_ttl_absolute k t now).2
       | none => acc.insert k v now) rest

theorem load_serializeEntries (entries : List (BStr × RedisElementB))
    (ttls : List (BStr × Nat)) :
    ∀ (fuel : Nat) (acc : B) (now : Nat),
    (∀ p ∈ entries, validStr p.1 ∧ validValue p.2) →
    (∀ p ∈ entries, ∀ t, alookup ttls p.1 = some t → now < t ∧ t < 2 ^ 32) →
    (serializeEntries entries ttls ++ [OP_EOF]).length ≤ fuel →
    load fuel acc now (serializeEntries entries ttls ++ [OP_EOF]) =
      .ok (loadFold now ttls acc entries) := by
  induction entries with
  | nil =>
    intro fuel acc now _ _ hlen
    cases fuel with
    | zero => simp at hlen
    | succ f =>
      simp only [serializeEntries, List.nil_append, load, loadFold]
      norm_num [OP_EXPIRETIME, OP_EOF]
  | cons p rest ih =>
    obtain ⟨k, v⟩ := p
    intro fuel acc now hval httl hlen
    have hk : validStr k := (hval (k, v) (by simp)).1
    have hv : validValue v := (hval (k, v) (by simp)).2
    have hvt : value_type_encode v < 3 := value_type_encode_lt hv
    have hvt253 : ¬ value_type_encode v = OP_EXPIRETIME := by
      simp only [OP_EXPIRETIME]
      omega
    have hvt255 : ¬ value_type_encode v = OP_EOF := by
      simp only [OP_EOF]
      omega
    have hvalr : ∀ q ∈ rest, validStr q.1 ∧ validValue q.2 :=
      fun q hq => hval q (by simp [hq])
    have httlr : ∀ q ∈ rest, ∀ t, alookup ttls q.1 = some t → now < t ∧ t < 2 ^ 32 :=
      fun q hq => httl q (by simp [hq])
    have hif : (if value_type_encode v ≠ WRONG_ELEMENT_TYPE then
        value_type_encode v :: (string_encode k ++ value_encode v) else []) =
        value_type_encode v :: (string_encode k ++ value_encode v) := by
      rw [if_pos]
      simp only [WRONG_ELEMENT_TYPE]
      omega
    cases httlk : alookup ttls k with
    | none =>
      have hstream : serializeEntries ((k, v) :: rest) ttls ++ [OP_EOF] =
          value_type_encode v ::
            (string_encode k ++ (value_encode v ++
              (serializeEntries rest ttls ++ [OP_EOF]))) := by
        simp [serializeEntries, httlk, hif, List.append_assoc]
      rw [hstream] at hlen ⊢
      cases fuel with
      | zero => simp at hlen
      | succ f =>
        have hle : (serializeEntries rest ttls ++ [OP_EOF]).length ≤ f := by
          simp only [List.length_cons, List.length_append] at hlen ⊢
          omega
        simp only [load, hvt253, hvt255, if_false]
        rw [string_decode_encode hk.1 hk.2]
        dsimp only
        rw [value_decode_encode hv]
        dsimp only
        rw [ih f (acc.insert k v now) now hvalr httlr hle]
        simp only [loadFold, httlk]
    | some t =>
      obtain ⟨ht1, ht2⟩ := httl (k, v) (by simp) t httlk
      have hstream : serializeEntries ((k, v) :: rest) ttls ++ [OP_EOF] =
          OP_EXPIRETIME ::
            (be32 (t % 2 ^ 32) ++
              (value_type_encode v ::
                (string_encode k ++ (value_encode v ++
                  (serializeEntries rest ttls ++ [OP_EOF]))))) := by
        simp [serializeEntries, httlk, hif, List.append_assoc]
      rw [hstream] at hlen ⊢
      cases fuel with
      | zero => simp at hlen
      | succ f =>
        have hle : (serializeEntries rest ttls ++ [OP_EOF]).length ≤ f := by
          simp only [List.length_cons, List.length_append, be32] at hlen ⊢
          omega
        simp only [load, if_pos rfl]
        rw [read_int_be32]
        dsimp only
        rw [Nat.mod_eq_of_lt ht2, Nat.mod_eq_of_lt ht2, if_pos ht1]
        rw [string_decode_encode hk.1 hk.2]
        dsimp only
        rw [value_decode_encode hv]
        dsimp only
        rw [ih f (((acc.insert k v now).set_ttl_absolute k t now).2) now hvalr httlr hle]
        simp only [loadFold, httlk, if_true]

end TtlHashMap

namespace TtlHashMap

theorem loadFold_store (now : Nat) (ttls : List (BStr × Nat)) :
    ∀ (entries : List (BStr × RedisElementB)) (acc : B),
    (∀ p ∈ entries, alookup acc.store p.1 = none) →
    (entries.map Prod.fst).Nodup →
    (loadFold now ttls acc entries).store = acc.store ++ entries := by
  intro entries
  induction entries with
  | nil => intro acc _ _; simp [loadFold]
  | cons p rest ih =>
    obtain ⟨k, v⟩ := p
    intro acc hfresh hnodup
    have hfk : alookup acc.store k = none := hfresh (k, v) (by simp)
    have hs1 : (acc.insert k v now).store = acc.store ++ [(k, v)] :=
      insert_store_of_fresh acc k v now hfk
    have hlk : alookup (acc.insert k v now).store k = some v := by
      rw [hs1, alookup_append, hfk]
      simp [alookup]
    have htk : alookup (acc.insert k v now).ttls k = none := by
      rw [insert_ttls, alookup_aerase_self]
    have hnodup' : (rest.map Prod.fst).Nodup := by
      simp only [List.map_cons, List.nodup_cons] at hnodup
      exact hnodup.2
    have hknot : k ∉ rest.map Prod.fst := by
      simp only [List.map_cons, List.nodup_cons] at hnodup
      exact hnodup.1
    have hstore2 : ∀ acc2 : B, acc2.store = acc.store ++ [(k, v)] →
        (∀ q ∈ rest, alookup acc2.store q.1 = none) := by
      intro acc2 h2 q hq
      rw [h2, alookup_append, hfresh q (by simp [hq])]
      have hne : ¬ k = q.1 := by
        intro he
        apply hknot
        rw [he]
        exact List.mem_map_of_mem Prod.fst hq
      simp [alookup, hne]
    cases httlk : alookup ttls k with
    | none =>
      simp only [loadFold, httlk]
      rw [ih (acc.insert k v now) (hstore2 _ hs1) hnodup', hs1]
      simp
    | some t =>
      have hset := set_ttl_absolute_of_live (acc.insert k v now) k t now hlk htk
      simp only [loadFold, httlk]
      have hs2 : (((acc.insert k v now).set_ttl_absolute k t now).2).store =
          acc.store ++ [(k, v)] := by
        rw [hset]
        exact hs1
      rw [ih _ (hstore2 _ hs2) hnodup', hs2]
      simp

theorem loadFold_ttls (now : Nat) (ttls : List (BStr × Nat)) :
    ∀ (entries : List (BStr × RedisElementB)) (acc : B),
    (∀ p ∈ entries, alookup acc.store p.1 = none) →
    (∀ p ∈ entries, alookup acc.ttls p.1 = none) →
    (entries.map Prod.fst).Nodup →
    (loadFold now ttls acc entries).ttls =
      acc.ttls ++ entries.filterMap
        (fun p => (alookup ttls p.1).map (fun t => (p.1, t))) := by
  intro entries
  induction entries with
  | nil => intro acc _ _ _; simp [loadFold]
  | cons p rest ih =>
    obtain ⟨k, v⟩ := p
    intro acc hfreshS hfreshT hnodup
    have hfk : alookup acc.store k = none := hfreshS (k, v) (by simp)
    have hftk : alookup acc.ttls k = none := hfreshT (k, v) (by simp)
    have hs1 : (acc.insert k v now).store = acc.store ++ [(k, v)] :=
      insert_store_of_fresh acc k v now hfk
    have hlk : alookup (acc.insert k v now).store k = some v := by
      rw [hs1, alookup_append, hfk]
      simp [alookup]
    have ht1 : (acc.insert k v now).ttls = acc.ttls := by
      rw [insert_ttls, aerase_eq_of_alookup_eq_none hftk]
    have htk : alookup (acc.insert k v now).ttls k = none := by
      rw [ht1]
      exact hftk
    have hnodup' : (rest.map Prod.fst).Nodup := by
      simp only [List.map_cons, List.nodup_cons] at hnodup
      exact hnodup.2
    have hknot : k ∉ rest.map Prod.fst := by
      simp only [List.map_cons, List.nodup_cons] at hnodup
      exact hnodup.1
    have hkq : ∀ q, q ∈ rest → ¬ k = q.1 := by
      intro q hq he
      apply hknot
      rw [he]
      exact List.mem_map_of_mem Prod.fst hq
    have hstore2 : ∀ acc2 : B, acc2.store = acc.store ++ [(k, v)] →
        (∀ q ∈ rest, alookup acc2.store q.1 = none) := by
      intro acc2 h2 q hq
      rw [h2, alookup_append, hfreshS q (by simp [hq])]
      simp [alookup, hkq q hq]
    cases httlk : alookup ttls k with
    | none =>
      have httls2 : ∀ q ∈ rest, alookup (acc.insert k v now).ttls q.1 = none := by
        intro q hq
        rw [ht1]
        exact hfreshT q (by simp [hq])
      simp only [loadFold, httlk]
      rw [ih (acc.insert k v now) (hstore2 _ hs1) httls2 hnodup', ht1]
      simp [List.filterMap_cons, httlk]
    | some t =>
      have hset := set_ttl_absolute_of_live (acc.insert k v now) k t now hlk htk
      have hs2 : (((acc.insert k v now).set_ttl_absolute k t now).2).store =
          acc.store ++ [(k, v)] := by
        rw [hset]
        exact hs1
      have ht2 : (((acc.insert k v now).set_ttl_absolute k t now).2).ttls =
          acc.ttls ++ [(k, t)] := by
        rw [hset]
        simp only [ht1, aset]
        rw [aerase_eq_of_alookup_eq_none hftk]
      have httls2 : ∀ q ∈ rest,
          alookup (((acc.insert k v now).set_ttl_absolute k t now).2).ttls q.1 = none := by
        intro q hq
        rw [ht2, alookup_append, hfreshT q (by simp [hq])]
        simp [alookup, hkq q hq]
      simp only [loadFold, httlk]
      rw [ih _ (hstore2 _ hs2) httls2 hnodup', ht2]
      simp [List.filterMap_cons, httlk]

theorem alookup_filterMap_ttls (ttls : List (BStr × Nat)) :
    ∀ (entries : List (BStr × RedisElementB)) (k : BStr),
    (entries.map Prod.fst).Nodup →
    alookup (entries.filterMap (fun p => (alookup ttls p.1).map (fun t => (p.1, t)))) k =
      if k ∈ entries.map Prod.fst then alookup ttls k else none := by
  intro entries
  induction entries with
  | nil => intro k _; simp [alookup]
  | cons p rest ih =>
    obtain ⟨k0, v0⟩ := p
    intro k hnodup
    have hnodup' : (rest.map Prod.fst).Nodup := by
      simp only [List.map_cons, List.nodup_cons] at hnodup
      exact hnodup.2
    have hknot : k0 ∉ rest.map Prod.fst := by
      simp only [List.map_cons, List.nodup_cons] at hnodup
      exact hnodup.1
    by_cases hk : k0 = k
    · subst hk
      cases httlk : alookup ttls k0 with
      | none =>
        simp only [List.filterMap_cons, httlk, Option.map_none']
        rw [ih k0 hnodup']
        simp [hknot, httlk]
      | some t =>
        simp only [List.filterMap_cons, httlk, Option.map_some']
        simp [alookup, httlk]
    · have hk' : ¬ k = k0 := fun h => hk h.symm
      cases httlk : alookup ttls k0 with
      | none =>
        simp only [List.filterMap_cons, httlk, Option.map_none']
        rw [ih k hnodup']
        by_cases hm : k ∈ List.map Prod.fst rest
        · simp [hm]
        · simp [hm, hk']
      | some t =>
        simp only [List.filterMap_cons, httlk, Option.map_some']
        rw [alookup_cons, if_neg hk, ih k hnodup']
        by_cases hm : k ∈ List.map Prod.fst rest
        · simp [hm]
        · simp [hm, hk']

end TtlHashMap

/-! ## Claims about the snapshot codec -/

/-- C1 (amended): for every keyspace whose values are only Str, List and Set
(strings valid UTF-8 and shorter than 2^32 bytes, containers smaller than
2^32 elements, stores smaller than 2^32 entries) and whose deadlines all lie
strictly in the future **and strictly below 2^32 seconds since the epoch**,
deserializing the byte stream produced by `serialize` yields a keyspace with
the same store and the same deadline for every key (the model fixes an
iteration order, so set members and second-granularity deadlines are
preserved exactly).  The 2^32 bound is forced by the `as u32` cast of the
deadline, see the counterexample. -/
theorem C1_round_trip (m : TtlHashMap.B) (now : Nat)
    (hnodup : (m.store.map Prod.fst).Nodup)
    (hvalid : ∀ p ∈ m.store, TtlHashMap.validStr p.1 ∧ TtlHashMap.validValue p.2)
    (httl : ∀ p ∈ m.ttls, now < p.2 ∧ p.2 < 2 ^ 32)
    (hsub : ∀ p ∈ m.ttls, alookup m.store p.1 ≠ none)
    (hslen : m.store.length < 2 ^ 32)
    (htlen : m.ttls.length < 2 ^ 32) :
    ∃ m' : TtlHashMap.B,
      TtlHashMap.deserialize (TtlHashMap.serialize m) now = .ok m' ∧
      m'.store = m.store ∧
      ∀ k, alookup m'.ttls k = alookup m.ttls k := by
  refine ⟨TtlHashMap.loadFold now m.ttls TtlHashMap.new m.store, ?_, ?_, ?_⟩
  · have httl' : ∀ p ∈ m.store, ∀ t, alookup m.ttls p.1 = some t →
        now < t ∧ t < 2 ^ 32 :=
      fun p _ t hsome => httl (p.1, t) (TtlHashMap.mem_pair_of_alookup_eq_some hsome)
    simp only [TtlHashMap.deserialize, TtlHashMap.serialize, List.append_assoc, if_true]
    rw [TtlHashMap.length_decode_encode hslen]
    dsimp only
    rw [TtlHashMap.length_decode_encode htlen]
    dsimp only
    exact TtlHashMap.load_serializeEntries m.store m.ttls _ TtlHashMap.new now hvalid httl'
      (le_refl _)
  · rw [TtlHashMap.loadFold_store now m.ttls m.store TtlHashMap.new
      (fun p _ => rfl) hnodup]
    rfl
  · intro k
    rw [TtlHashMap.loadFold_ttls now m.ttls m.store TtlHashMap.new
      (fun p _ => rfl) (fun p _ => rfl) hnodup]
    simp only [TtlHashMap.new, List.nil_append]
    rw [TtlHashMap.alookup_filterMap_ttls m.ttls m.store k hnodup]
    by_cases hm : k ∈ m.store.map Prod.fst
    · simp [hm]
    · rw [if_neg hm]
      cases hkt : alookup m.ttls k with
      | none => rfl
      | some t =>
        exfalso
        have hmem := TtlHashMap.mem_pair_of_alookup_eq_some hkt
        cases hst : alookup m.store k with
        | none => exact hsub (k, t) hmem hst
        | some v => exact hm (mem_of_alookup_eq_some hst)

/-- C1 counterexample: the claim as frozen only requires deadlines to be
strictly in the future.  Take the keyspace with the single entry
`"k" (0x6b) ↦ Str "v" (0x76)` and deadline `2^32 + 20` seconds (strictly
after `now = 50`).  `serialize` truncates the deadline with an `as u32`
cast to `20`, which lies in the past at load time, so the decoder re-parses
the value record as a standalone record: the decoded keyspace holds the key
with **no** deadline, while the original holds deadline `2^32 + 20` — not
equal even at whole-second granularity. -/
theorem C1_counterexample :
    (50 : Nat) < 4294967316 ∧
    TtlHashMap.deserialize
      (TtlHashMap.serialize
        ⟨[([107], RedisElementB.string [118])], [([107], 4294967316)], []⟩) 50 =
      .ok ⟨[([107], RedisElementB.string [118])], [], [([107], 50)]⟩ ∧
    alookup ([([107], 4294967316)] : List (BStr × Nat)) [107] = some 4294967316 ∧
    alookup ([] : List (BStr × Nat)) [107] = none :=
  ⟨by norm_num, rfl, rfl, rfl⟩

/-- C1 witness: the amended round trip evaluated on a concrete keyspace
holding a string, a list and a set, one key carrying a future deadline. -/
theorem C1_witness :
    (([([104], RedisElementB.string [105]),
       ([106], RedisElementB.list [[107], [108]]),
       ([109], RedisElementB.set [[110], [111]])] : List (BStr × RedisElementB)).map
        Prod.fst).Nodup ∧
    (∀ p ∈ ([([104], 1000)] : List (BStr × Nat)), 10 < p.2 ∧ p.2 < 2 ^ 32) ∧
    (∃ m' : TtlHashMap.B,
      TtlHashMap.deserialize
        (TtlHashMap.serialize
          ⟨[([104], RedisElementB.string [105]),
            ([106], RedisElementB.list [[107], [108]]),
            ([109], RedisElementB.set [[110], [111]])], [([104], 1000)], []⟩) 10 =
        .ok m' ∧
      m'.store = [([104], RedisElementB.string [105]),
        ([106], RedisElementB.list [[107], [108]]),
        ([109], RedisElementB.set [[110], [111]])] ∧
      ∀ k, alookup m'.ttls k = alookup ([([104], 1000)] : List (BStr × Nat)) k) :=
  ⟨by decide, by decide,
    C1_round_trip
      ⟨[([104], RedisElementB.string [105]),
        ([106], RedisElementB.list [[107], [108]]),
        ([109], RedisElementB.set [[110], [111]])], [([104], 1000)], []⟩ 10
      (by decide) (by decide) (by decide) (by decide) (by decide) (by decide)⟩

/-- C2: the spec says a record beginning with EXPIRE whose deadline is past
is discarded **together with the VALUE record that immediately follows**.
In the source, the expired branch skips only the `if` body, so the pending
VALUE record is re-parsed from the top of the loop as a standalone record
and inserted **without** a deadline.  Concretely: stream =
RESIZEDB, sizes 1/1, EXPIRE 50, then a Str record `"k" (0x6b) ↦ "v" (0x76)`,
EOF; at `now = 100` the deadline 50 is past, yet the decoded keyspace binds
the key (persistently) — the claim says it must contain no such binding. -/
theorem C2_expired_record_not_discarded :
    TtlHashMap.deserialize
      [251, 1, 1, 253, 0, 0, 0, 50, 0, 1, 107, 1, 118, 255] 100 =
      .ok ⟨[([107], RedisElementB.string [118])], [], [([107], 100)]⟩ ∧
    alookup ([([107], RedisElementB.string [118])] : List (BStr × RedisElementB)) [107] =
      some (RedisElementB.string [118]) :=
  ⟨rfl, rfl⟩

/-! ## The command executor (`src/service/redis.rs`)

`Redis` owns the keyspace and the pub/sub broker.  A `Sender<Re>` sink is
modelled as a numeric identifier allocated from `next_sink` (one fresh id
per `mpsc::channel()` call); a successful `send` appends the message to the
`sent` transcript.  The log sink and the monitor sink list are omitted: no
claim observes them, and their sends carry no state.  Rust panics are
modelled as `none` of the `Option`-returning methods. -/

/-- `RedisElement` at the `String` level, as the executor manipulates it
(`Set` in the `HashSet` iteration order). -/
inductive RedisElement : Type
  | string (s : String)
  | list (l : List String)
  | set (l : List String)
  | nil
deriving DecidableEq

/-- Modelled from the spec: the `Display` implementation of `RedisElement`
(its file, `src/entities/redis_element.rs`, is not among the sources).
Per the spec's response-surface section: a string renders literally, `Nil`
renders as the literal token `(nil)`, a list or set renders as its elements
in the container's order (space-separated here; no claim exercises that
case). -/
def RedisElement.toDisplay : RedisElement → String
  | .string s => s
  | .list l => String.intercalate " " l
  | .set l => String.intercalate " " l
  | .nil => "(nil)"

/-- A `Response` from the executor: an immediate value or a streaming sink. -/
inductive Response : Type
  | normal (re : RedisElement)
  | stream (sink : Nat)
deriving DecidableEq

def WRONGTYPE_MSG : String := "WRONGTYPE Operation against a key holding the wrong kind of value"

def OUT_OF_RANGE_MSG : String := "ERR value is not an integer or out of range"

/-- The executor state (`struct Redis`). -/
structure Redis : Type where
  db : TtlHashMap String RedisElement
  subscribers : List (String × List Nat)
  next_sink : Nat
  sent : List (Nat × RedisElement)
deriving DecidableEq

/-- Two's-complement wrap of an `i32` arithmetic result (release-mode Rust
addition semantics). -/
def wrap32 (n : Int) : Int := (n + 2 ^ 31) % 2 ^ 32 - 2 ^ 31

/-- `i32::from_str` (`value.parse::<i32>()`): optional sign, then decimal
digits only, rejecting the empty string and values outside the `i32` range. -/
def parseI32 (s : String) : Option Int :=
  let sgnDigits : Int × List Char :=
    match s.data with
    | '+' :: rest => (1, rest)
    | '-' :: rest => (-1, rest)
    | l => (1, l)
  let sgn := sgnDigits.1
  let digits := sgnDigits.2
  if digits = [] then none
  else if digits.all Char.isDigit then
    let n : Nat := digits.foldl (fun acc c => acc * 10 + (c.toNat - 48)) 0
    let v : Int := sgn * n
    if -(2 ^ 31) ≤ v ∧ v ≤ 2 ^ 31 - 1 then some v else none
  else none

/-- `u32 as i32`. -/
def i32_of_u32 (n : Nat) : Int := if n < 2 ^ 31 then (n : Int) else (n : Int) - 2 ^ 32

/-- `i32 as usize` (64-bit): non-negative values unchanged, negative values
wrap to huge numbers. -/
def usize_of_i32 (c : Int) : Nat := (c % 2 ^ 64).toNat

/-- `HashSet::extend`: insert each element not already present. -/
def set_extend (s : List String) (values : List String) : List String :=
  values.foldl (fun acc x => if x ∈ acc then acc else acc ++ [x]) s

namespace Redis

/-- `set_method`: unconditional string overwrite, replies `"Ok"`. -/
def set_method (r : Redis) (key value : String) (now : Nat) : String × Redis :=
  ("Ok", { r with db := r.db.insert key (.string value) now })

/-- `get_method`: `Str` is returned, a live non-string is `WRONGTYPE`, a
missing key is `Nil`. -/
def get_method (r : Redis) (key : String) (now : Nat) :
    Except String RedisElement × Redis :=
  match r.db.get key now with
  | (some (.string s), m1) => (.ok (.string s), { r with db := m1 })
  | (some _, m1) => (.error WRONGTYPE_MSG, { r with db := m1 })
  | (none, m1) => (.ok .nil, { r with db := m1 })

/-- `getset_method`. -/
def getset_method (r : Redis) (key value : String) (now : Nat) :
    Except String Response × Redis :=
  match r.get_method key now with
  | (.ok ret, r1) =>
    let (_, r2) := r1.set_method key value now
    (.ok (.normal ret), r2)
  | (.error e, r1) => (.error e, r1)

/-- `incrby_method` (also `decrby` via a negated increment).  Note the
source quirk embedded faithfully: `get_method`'s `Err` (a live list or set)
falls into the outer `Err(_)` arm, which **seeds the key with the
increment**; the inner `_ => Err(WRONGTYPE)` arm is unreachable because
`get_method` never returns `Ok` with a list or set. -/
def incrby_method (r : Redis) (key : String) (increment : Int) (now : Nat) :
    Except String Response × Redis :=
  match r.get_method key now with
  | (.ok (.string value), r1) =>
    match parseI32 value with
    | none => (.error OUT_OF_RANGE_MSG, r1)
    | some n =>
      let my_int := wrap32 (n + increment)
      let (s, r2) := r1.set_method key (toString my_int) now
      (.ok (.normal (.string s)), r2)
  | (.ok .nil, r1) =>
    let (s, r2) := r1.set_method key (toString increment) now
    (.ok (.normal (.string s)), r2)
  | (.ok _, r1) => (.error WRONGTYPE_MSG, r1)
  | (.error _, r1) =>
    let (s, r2) := r1.set_method key (toString increment) now
    (.ok (.normal (.string s)), r2)

/-- `mset_method`: set every pair left to right, reply `"Ok"`. -/
def mset_method (r : Redis) (key_values : List (String × String)) (now : Nat) :
    Response × Redis :=
  (.normal (.string "Ok"),
    key_values.foldl (fun acc kv => (acc.set_method kv.1 kv.2 now).2) r)

/-- `getdel_method`. -/
def getdel_method (r : Redis) (key : String) (now : Nat) :
    Except String RedisElement × Redis :=
  match r.get_method key now with
  | (.ok (.string s), r1) => (.ok (.string s), { r1 with db := r1.db.remove key })
  | (.ok .nil, r1) => (.ok .nil, r1)
  | (.ok _, r1) => (.error WRONGTYPE_MSG, r1)
  | (.error e, r1) => (.error e, r1)

/-- `append_method`. -/
def append_method (r : Redis) (key value : String) (now : Nat) :
    Except String Response × Redis :=
  match r.get_method key now with
  | (.ok (.string s), r1) =>
    let (st, r2) := r1.set_method key (s ++ value) now
    (.ok (.normal (.string st)), r2)
  | (.ok .nil, r1) =>
    let (st, r2) := r1.set_method key value now
    (.ok (.normal (.string st)), r2)
  | (.ok _, r1) => (.error WRONGTYPE_MSG, r1)
  | (.error e, r1) => (.error e, r1)

/-- `rename_method`: get-and-delete the origin, then `set` the destination
to the origin value's display rendering. -/
def rename_method (r : Redis) (key_origin key_destination : String) (now : Nat) :
    Except String Response × Redis :=
  match r.getdel_method key_origin now with
  | (.ok value, r1) =>
    let (s, r2) := r1.set_method key_destination value.toDisplay now
    (.ok (.normal (.string s)), r2)
  | (.error msg, r1) => (.error msg, r1)

/-- `copy_method`: `"0"` if the origin is missing or the destination exists,
otherwise clone the value and reply `"1"`. -/
def copy_method (r : Redis) (key_origin key_destination : String) (now : Nat) :
    Response × Redis :=
  match r.db.get key_origin now with
  | (none, m1) => (.normal (.string "0"), { r with db := m1 })
  | (some value, m1) =>
    let r1 : Redis := { r with db := m1 }
    match r1.db.get key_destination now with
    | (some _, m2) => (.normal (.string "0"), { r1 with db := m2 })
    | (none, m2) =>
      (.normal (.string "1"), { r1 with db := m2.insert key_destination value now })

/-- The shared reply tail of `lpop_method`/`rpop_method`: a single popped
element is returned as a plain string (also when the count was explicit), two
or more as a list, none as `Nil`. -/
def popReply (ret : List String) : Except String Response :=
  if ret.length = 1 then .ok (.normal (.string (ret.headD "")))
  else if ret.length > 0 then .ok (.normal (.list ret))
  else .ok (.normal .nil)

/-- `lpop_method`.  `count = 0` pops one element via
`value.get(..=0).unwrap()`, which **panics** (`none`) on an empty stored
list; `count ≥ 1` pops up to `count` from the head.  The remainder is
re-inserted even when empty. -/
def lpop_method (r : Redis) (key : String) (count : Nat) (now : Nat) :
    Option (Except String Response × Redis) :=
  match r.db.get_mut key now with
  | (some (.list l), m1) =>
    if count = 0 then
      match l with
      | [] => none
      | x :: rest =>
        some (popReply [x], { r with db := m1.insert key (.list rest) now })
    else
      let qty := if count ≥ l.length then l.length else count
      some (popReply (l.take qty), { r with db := m1.insert key (.list (l.drop qty)) now })
  | (some _, m1) => some (.error WRONGTYPE_MSG, { r with db := m1 })
  | (none, m1) => some (.ok (.normal .nil), { r with db := m1 })

/-- `rpop_method`: reverse in place, pop from the front of the reversed
list, un-reverse the remainder; same `count = 0` panic on an empty list. -/
def rpop_method (r : Redis) (key : String) (count : Nat) (now : Nat) :
    Option (Except String Response × Redis) :=
  match r.db.get_mut key now with
  | (some (.list l), m1) =>
    let lr := l.reverse
    if count = 0 then
      match lr with
      | [] => none
      | x :: rest =>
        some (popReply [x], { r with db := m1.insert key (.list rest.reverse) now })
    else
      let qty := if count ≥ lr.length then lr.length else count
      some (popReply (lr.take qty),
        { r with db := m1.insert key (.list ((lr.drop qty).reverse)) now })
  | (some _, m1) => some (.error WRONGTYPE_MSG, { r with db := m1 })
  | (none, m1) => some (.ok (.normal .nil), { r with db := m1 })

/-- `lpush_method`: reverse the arguments, prepend to the stored list (or
create it), reply with the new length. -/
def lpush_method (r : Redis) (key : String) (values : List String) (now : Nat) :
    Except String Response × Redis :=
  let redis_element := values.reverse
  match r.db.get_mut key now with
  | (some (.list l), m1) =>
    let newl := redis_element ++ l
    (.ok (.normal (.string (toString newl.length))),
      { r with db := m1.insert key (.list newl) now })
  | (some _, m1) => (.error WRONGTYPE_MSG, { r with db := m1 })
  | (none, m1) =>
    (.ok (.normal (.string (toString redis_element.length))),
      { r with db := m1.insert key (.list redis_element) now })

/-- `rpush_method`. -/
def rpush_method (r : Redis) (key : String) (values : List String) (now : Nat) :
    Except String Response × Redis :=
  match r.db.get_mut key now with
  | (some (.list l), m1) =>
    let newl := l ++ values
    (.ok (.normal (.string (toString newl.length))),
      { r with db := m1.insert key (.list newl) now })
  | (some _, m1) => (.error WRONGTYPE_MSG, { r with db := m1 })
  | (none, m1) =>
    (.ok (.normal (.string (toString values.length))),
      { r with db := m1.insert key (.list values) now })

/-- The `for i in 0..vector.len()` loop of `remove_repeats`: the range is
evaluated once, removals shift later elements so some are skipped, and the
`n <= count` guard admits `count + 1` removals — all preserved. -/
def remove_repeats_go (count : Nat) (element : String) :
    Nat → Nat → Nat → List String → List String × Nat
  | 0, _, n, v => (v, n)
  | steps + 1, i, n, v =>
    if n ≤ count ∧ v[i]? = some element then
      remove_repeats_go count element steps (i + 1) (n + 1) (v.eraseIdx i)
    else remove_repeats_go count element steps (i + 1) n v

/-- `remove_repeats`. -/
def remove_repeats (count : Nat) (element : String) (vector : List String) :
    List String × Nat :=
  remove_repeats_go count element vector.length 0 0 vector

/-- The loop of `remove_all_repeats` (same index-skipping behaviour). -/
def remove_all_repeats_go (element : String) :
    Nat → Nat → Nat → List String → List String × Nat
  | 0, _, n, v => (v, n)
  | steps + 1, i, n, v =>
    if v[i]? = some element then
      remove_all_repeats_go element steps (i + 1) (n + 1) (v.eraseIdx i)
    else remove_all_repeats_go element steps (i + 1) n v

/-- `remove_all_repeats`. -/
def remove_all_repeats (element : String) (vector : List String) :
    List String × Nat :=
  remove_all_repeats_go element vector.length 0 0 vector

/-- `lrem_method`: positive count removes from the head, negative count
reverses first (the `i32 as usize` cast makes the bound huge), zero removes
all; replies with the number removed. -/
def lrem_method (r : Redis) (key : String) (count : Int) (element : String) (now : Nat) :
    Except String Response × Redis :=
  match r.db.get_mut key now with
  | (some (.list l), m1) =>
    if 0 < count then
      let fd := remove_repeats (usize_of_i32 count) element l
      (.ok (.normal (.string (toString fd.2))),
        { r with db := m1.insert key (.list fd.1) now })
    else if count < 0 then
      let fd := remove_repeats (usize_of_i32 count) element l.reverse
      (.ok (.normal (.string (toString fd.2))),
        { r with db := m1.insert key (.list fd.1.reverse) now })
    else
      let fd := remove_all_repeats element l
      (.ok (.normal (.string (toString fd.2))),
        { r with db := m1.insert key (.list fd.1) now })
  | (some _, m1) => (.error WRONGTYPE_MSG, { r with db := m1 })
  | (none, m1) => (.ok (.normal (.string "0")), { r with db := m1 })

/-- `lset_method`: negative index is relative to the length; the bound check
`position < 0 || position > len` lets `position = len` through, where
`saved_value[position] = element` **panics** (`none`).  The write mutates the
stored list in place through the `get_mut` reference. -/
def lset_method (r : Redis) (key : String) (index : Int) (element : String) (now : Nat) :
    Option (Except String Response × Redis) :=
  match r.db.get_mut key now with
  | (some (.list l), m1) =>
    let len : Int := l.length
    let position : Int := if index < 0 then index + len else index
    if position < 0 ∨ position > len then
      some (.error "ERR index out of range", { r with db := m1 })
    else if position = len then none
    else
      some (.ok (.normal (.string "Ok")),
        { r with db :=
          { m1 with store := aset m1.store key (.list (l.set position.toNat element)) } })
  | (some _, m1) => some (.error WRONGTYPE_MSG, { r with db := m1 })
  | (none, m1) => some (.error "ERR no such key", { r with db := m1 })

/-- `sadd_method` (the command's `HashSet` argument is modelled as the
deduplicated list `set_extend [] values`). -/
def sadd_method (r : Redis) (key : String) (values : List String) (now : Nat) :
    Except String Response × Redis :=
  match r.db.get_mut key now with
  | (some (.set s), m1) =>
    let set2 := set_extend s (set_extend [] values)
    (.ok (.normal (.string (toString (set2.length - s.length)))),
      { r with db := m1.insert key (.set set2) now })
  | (some _, m1) => (.error "WRONGTYPE A hashset data type expected", { r with db := m1 })
  | (none, m1) =>
    let vset := set_extend [] values
    (.ok (.normal (.string (toString vset.length))),
      { r with db := m1.insert key (.set vset) now })

/-- `srem_method`. -/
def srem_method (r : Redis) (key : String) (values : List String) (now : Nat) :
    Except String Response × Redis :=
  match r.db.get_mut key now with
  | (some (.set s), m1) =>
    let fd := (set_extend [] values).foldl
      (fun (acc : List String × Nat) x =>
        if x ∈ acc.1 then (acc.1.erase x, acc.2 + 1) else acc) (s, 0)
    (.ok (.normal (.string (toString fd.2))),
      { r with db := m1.insert key (.set fd.1) now })
  | (some _, m1) => (.error "WRONGTYPE A hashset data type expected", { r with db := m1 })
  | (none, m1) => (.ok (.normal (.string "0")), { r with db := m1 })

/-- `subscribe_method`: one fresh sink for the whole call; for each channel,
append the sink to the channel's list and send the confirmation message
`["subscribe", channel, "1"]` — the counter is the literal `"1"` in the
source. -/
def subscribe_method (r : Redis) (channels : List String) :
    Except String Response × Redis :=
  let sen := r.next_sink
  let r0 : Redis := { r with next_sink := r.next_sink + 1 }
  let rf := channels.foldl
    (fun (acc : Redis) channel =>
      let vector_sender := (alookup acc.subscribers channel).getD [] ++ [sen]
      { acc with
        subscribers := aset acc.subscribers channel vector_sender,
        sent := acc.sent ++ [(sen, RedisElement.list ["subscribe", channel, "1"])] })
    r0
  (.ok (.stream sen), rf)

/-- `publish_method`: `"0"` when the channel has no entry; otherwise send the
message to every sink on the channel and reply the literal `"Ok"`. -/
def publish_method (r : Redis) (channel msg : String) :
    Except String Response × Redis :=
  if alookup r.subscribers channel = none then
    (.ok (.normal (.string "0")), r)
  else
    let sinks := (alookup r.subscribers channel).getD []
    (.ok (.normal (.string "Ok")),
      { r with sent := r.sent ++ sinks.map (fun s => (s, RedisElement.string msg)) })

end Redis

/-- The commands of `Command` (from the enum `redis.rs` dispatches on) that
the theorems exercise; integer arguments carry the Rust types' ranges
(`u32` counts as `Nat`, `i32` indices as `Int`). -/
inductive Command : Type
  | set (key value : String)
  | getset (key value : String)
  | mset (key_values : List (String × String))
  | incrby (key : String) (increment : Nat)
  | decrby (key : String) (decrement : Nat)
  | get (key : String)
  | getdel (key : String)
  | append (key value : String)
  | copy (key_origin key_destination : String)
  | rename (key_origin key_destination : String)
  | lpush (key : String) (value : List String)
  | rpush (key : String) (value : List String)
  | lpop (key : String) (count : Nat)
  | rpop (key : String) (count : Nat)
  | lrem (key : String) (count : Int) (element : String)
  | lset (key : String) (index : Int) (element : String)
  | sadd (key : String) (values : List String)
  | srem (key : String) (values : List String)
  | subscribe (channels : List String)
  | publish (channel message : String)
  | unsubscribe (channels : List String)
deriving DecidableEq

/-- `Redis::execute`: dispatch a command against the state.  A `none` result
is a Rust panic; `Unsubscribe` answers `Err("Method not implemented")`
verbatim. -/
def Redis.execute (r : Redis) (command : Command) (now : Nat) :
    Option (Except String Response × Redis) :=
  match command with
  | .set key value =>
    let (s, r1) := r.set_method key value now
    some (.ok (.normal (.string s)), r1)
  | .getset key value => some (r.getset_method key value now)
  | .mset kvs =>
    let (resp, r1) := r.mset_method kvs now
    some (.ok resp, r1)
  | .incrby key increment => some (r.incrby_method key (i32_of_u32 increment) now)
  | .decrby key decrement => some (r.incrby_method key (-(i32_of_u32 decrement)) now)
  | .get key =>
    match r.get_method key now with
    | (.ok re, r1) => some (.ok (.normal re), r1)
    | (.error e, r1) => some (.error e, r1)
  | .getdel key =>
    match r.getdel_method key now with
    | (.ok re, r1) => some (.ok (.normal re), r1)
    | (.error e, r1) => some (.error e, r1)
  | .append key value => some (r.append_method key value now)
  | .copy o d =>
    let (resp, r1) := r.copy_method o d now
    some (.ok resp, r1)
  | .rename o d => some (r.rename_method o d now)
  | .lpush k v => some (r.lpush_method k v now)
  | .rpush k v => some (r.rpush_method k v now)
  | .lpop k c => r.lpop_method k c now
  | .rpop k c => r.rpop_method k c now
  | .lrem k c e => some (r.lrem_method k c e now)
  | .lset k i e => r.lset_method k i e now
  | .sadd k vs => some (r.sadd_method k vs now)
  | .srem k vs => some (r.srem_method k vs now)
  | .subscribe cs => some (r.subscribe_method cs)
  | .publish c m => some (r.publish_method c m)
  | .unsubscribe _ => some (.error "Method not implemented", r)

/-! ## Claims about the executor -/

/-- C3: the spec says no well-typed command is fatal to the executor.  With
key "k" holding the empty list — exactly the state a draining `lpop` leaves
behind — `LPOP k 0` runs `value.get(..=0).unwrap()` on an empty slice and
panics, killing the executor (model: `none`).  `lset_method` at
`position = len` and `Regex::new(pattern).unwrap()` in `keys_method` are
further fatal points. -/
theorem C3_lpop_empty_list_panics :
    Redis.execute ⟨⟨[("k", RedisElement.list [])], [], [("k", 0)]⟩, [], 0, []⟩
      (Command.lpop "k" 0) 5 = none := rfl

/-- C4: publishing "m" to channel "ch" with one subscribed sink (id 7)
delivers the message to the sink but replies the literal string "Ok" — the
claim requires the reply to be the number of sinks delivered to, here 1.
(The no-subscriber arm does reply "0".) -/
theorem C4_publish_returns_Ok_not_count :
    Redis.execute ⟨⟨[], [], []⟩, [("ch", [7])], 8, []⟩ (Command.publish "ch" "m") 0 =
      some (.ok (.normal (.string "Ok")),
        ⟨⟨[], [], []⟩, [("ch", [7])], 8, [(7, RedisElement.string "m")]⟩) ∧
    Redis.execute ⟨⟨[], [], []⟩, [("ch", [7])], 8, []⟩ (Command.publish "other" "m") 0 =
      some (.ok (.normal (.string "0")), ⟨⟨[], [], []⟩, [("ch", [7])], 8, []⟩) :=
  ⟨rfl, rfl⟩

/-- C7: `INCRBY k 1` on key "k" holding the live list ["a"].  The claim
requires a WRONGTYPE rejection leaving the entry unchanged; in the source the
wrong-type error from `get_method` lands in `incrby_method`'s outer `Err(_)`
arm, which seeds the key: the reply is `Ok("Ok")` and the list is
overwritten by the string "1". -/
theorem C7_incrby_overwrites_list :
    Redis.execute ⟨⟨[("k", RedisElement.list ["a"])], [], [("k", 0)]⟩, [], 0, []⟩
      (Command.incrby "k" 1) 5 =
      some (.ok (.normal (.string "Ok")),
        ⟨⟨[("k", RedisElement.string "1")], [], [("k", 5)]⟩, [], 0, []⟩) := rfl

/-- C8 counterexample: `SUBSCRIBE ["a", "b"]` from the empty state emits the
confirmations onto the new sink (id 0) with the third element the literal
"1" for **both** channels; the claim requires the second message to carry
"2" (the per-client subscription count so far). -/
theorem C8_counterexample :
    Redis.execute ⟨⟨[], [], []⟩, [], 0, []⟩ (Command.subscribe ["a", "b"]) 0 =
      some (.ok (.stream 0),
        ⟨⟨[], [], []⟩, [("a", [0]), ("b", [0])], 1,
          [(0, RedisElement.list ["subscribe", "a", "1"]),
           (0, RedisElement.list ["subscribe", "b", "1"])]⟩) := rfl

/-- C8 (amended): for every subscribe call and each named channel, one
confirmation message `["subscribe", channel, "1"]` is emitted onto the
single fresh sink of the call, in channel order — the trailing counter is
always the literal "1", not a running per-client subscription count. -/
theorem C8_subscribe_confirmations (r : Redis) (channels : List String) :
    ∃ r' : Redis,
      r.subscribe_method channels = (.ok (.stream r.next_sink), r') ∧
      r'.sent = r.sent ++ channels.map
        (fun channel => (r.next_sink, RedisElement.list ["subscribe", channel, "1"])) := by
  refine ⟨(r.subscribe_method channels).2, ?_, ?_⟩
  · unfold Redis.subscribe_method
    rfl
  · unfold Redis.subscribe_method
    dsimp only
    generalize hsen : r.next_sink = sen
    have main : ∀ (cs : List String) (acc : Redis),
        (cs.foldl
          (fun (acc : Redis) channel =>
            { acc with
              subscribers := aset acc.subscribers channel
                ((alookup acc.subscribers channel).getD [] ++ [sen]),
              sent := acc.sent ++ [(sen, RedisElement.list ["subscribe", channel, "1"])] })
          acc).sent =
          acc.sent ++ cs.map
            (fun channel => (sen, RedisElement.list ["subscribe", channel, "1"])) := by
      intro cs
      induction cs with
      | nil => intro acc; simp
      | cons c t ih =>
        intro acc
        simp only [List.foldl_cons, List.map_cons]
        rw [ih]
        simp
    rw [main]

/-- C9 counterexample: with client sink 7 subscribed to "ch", `UNSUBSCRIBE
["ch"]` removes nothing and replies the error "Method not implemented" — the
claim says the sink is removed from the channel. -/
theorem C9_counterexample :
    Redis.execute ⟨⟨[], [], []⟩, [("ch", [7])], 8, []⟩ (Command.unsubscribe ["ch"]) 0 =
      some (.error "Method not implemented",
        ⟨⟨[], [], []⟩, [("ch", [7])], 8, []⟩) := rfl

/-- C9 (amended): the executor's `Unsubscribe` arm is unimplemented: for
every channel list and state it replies `Error "Method not implemented"` and
leaves the state (subscribers included) untouched. -/
theorem C9_unsubscribe_not_implemented (r : Redis) (channels : List String) (now : Nat) :
    r.execute (Command.unsubscribe channels) now =
      some (.error "Method not implemented", r) := rfl

namespace TtlHashMap

theorem alookup_insert_store_self {K V : Type} [DecidableEq K]
    (m : TtlHashMap K V) (k : K) (v : V) (now : Nat) :
    alookup (m.insert k v now).store k = some v := by
  simp [insert, remove, alookup_aset_self]

theorem alookup_insert_store_ne {K V : Type} [DecidableEq K]
    (m : TtlHashMap K V) {k k' : K} (v : V) (now : Nat) (h : k ≠ k') :
    alookup (m.insert k v now).store k' = alookup m.store k' := by
  simp only [insert, remove]
  rw [alookup_aset_ne _ _ h, alookup_aerase_ne _ h]

theorem alookup_insert_ttls_self {K V : Type} [DecidableEq K]
    (m : TtlHashMap K V) (k : K) (v : V) (now : Nat) :
    alookup (m.insert k v now).ttls k = none := by
  simp only [insert, remove]
  exact alookup_aerase_self _ _

theorem alookup_insert_ttls_ne {K V : Type} [DecidableEq K]
    (m : TtlHashMap K V) {k k' : K} (v : V) (now : Nat) (h : k ≠ k') :
    alookup (m.insert k v now).ttls k' = alookup m.ttls k' := by
  simp only [insert, remove]
  exact alookup_aerase_ne _ h

theorem alookup_insert_la_self {K V : Type} [DecidableEq K]
    (m : TtlHashMap K V) (k : K) (v : V) (now : Nat) :
    alookup (m.insert k v now).last_access k = some now := by
  simp [insert, remove, alookup_aset_self]

theorem alookup_insert_la_ne {K V : Type} [DecidableEq K]
    (m : TtlHashMap K V) {k k' : K} (v : V) (now : Nat) (h : k ≠ k') :
    alookup (m.insert k v now).last_access k' = alookup m.last_access k' := by
  simp only [insert, remove]
  rw [alookup_aset_ne _ _ h, alookup_aerase_ne _ h]

/-- Reading a live (present, unexpired) key: the value is returned and only
the access stamp changes. -/
theorem get_of_live {K V : Type} [DecidableEq K]
    (m : TtlHashMap K V) (k : K) (now : Nat) {v : V}
    (hl : alookup m.store k = some v) (he : m.expired k now = false) :
    m.get k now = (some v, { m with last_access := aset m.last_access k now }) := by
  simp [get, update_last_access, contains_key, hl, he]

/-- Reading a key that is absent from both the store and the deadline map
changes nothing. -/
theorem get_of_absent {K V : Type} [DecidableEq K]
    (m : TtlHashMap K V) (k : K) (now : Nat)
    (hl : alookup m.store k = none) (ht : alookup m.ttls k = none) :
    m.get k now = (none, m) := by
  have he : m.expired k now = false := by simp [expired, ht]
  simp [get, update_last_access, contains_key, hl, he]

end TtlHashMap

namespace Redis

theorem ttls_after_set (r : Redis) (k v : String) (now : Nat) :
    alookup ((r.set_method k v now).2).db.ttls k = none ∧
    alookup ((r.set_method k v now).2).db.last_access k = some now := by
  unfold set_method
  exact ⟨TtlHashMap.alookup_insert_ttls_self _ _ _ _,
    TtlHashMap.alookup_insert_la_self _ _ _ _⟩

end Redis

/-- C10 counterexample: `RENAME a b` on the empty keyspace **succeeds** — the
claim says rename succeeds only when the origin holds a string.  `getdel` of
the missing origin returns `Ok(Nil)`, and rename then stores `Nil`'s display
rendering: the destination ends up holding the literal string "(nil)". -/
theorem C10_counterexample :
    Redis.execute ⟨⟨[], [], []⟩, [], 0, []⟩ (Command.rename "a" "b") 5 =
      some (.ok (.normal (.string "Ok")),
        ⟨⟨[("b", RedisElement.string "(nil)")], [], [("b", 5)]⟩, [], 0, []⟩) := rfl

/-- C10 (amended): `rename(src, dst)` with a live list or set at `src`
replies WRONGTYPE and leaves every store entry and every deadline unchanged;
with a live string at `src` (and `dst ≠ src`) it deletes `src` and installs
the string at `dst` with no deadline; with `src` absent it also succeeds,
storing the literal string "(nil)" at `dst`. -/
theorem C10_rename_semantics :
    (∀ (r : Redis) (src dst : String) (v : RedisElement) (now : Nat),
      alookup r.db.store src = some v →
      r.db.expired src now = false →
      ((∃ l, v = RedisElement.list l) ∨ (∃ l, v = RedisElement.set l)) →
      ∃ r' : Redis,
        r.rename_method src dst now = (.error WRONGTYPE_MSG, r') ∧
        r'.db.store = r.db.store ∧
        r'.db.ttls = r.db.ttls) ∧
    (∀ (r : Redis) (src dst : String) (s : String) (now : Nat),
      alookup r.db.store src = some (RedisElement.string s) →
      r.db.expired src now = false →
      src ≠ dst →
      ∃ r' : Redis,
        r.rename_method src dst now = (.ok (.normal (.string "Ok")), r') ∧
        alookup r'.db.store src = none ∧
        alookup r'.db.store dst = some (RedisElement.string s) ∧
        alookup r'.db.ttls dst = none ∧
        alookup r'.db.last_access dst = some now) ∧
    (∀ (r : Redis) (src dst : String) (now : Nat),
      alookup r.db.store src = none →
      alookup r.db.ttls src = none →
      ∃ r' : Redis,
        r.rename_method src dst now = (.ok (.normal (.string "Ok")), r') ∧
        alookup r'.db.store dst = some (RedisElement.string "(nil)") ∧
        alookup r'.db.ttls dst = none) := by
  refine ⟨?_, ?_, ?_⟩
  · intro r src dst v now hl he hv
    have hget := TtlHashMap.get_of_live r.db src now hl he
    have harm : r.get_method src now =
        (.error WRONGTYPE_MSG,
          { r with db := { r.db with last_access := aset r.db.last_access src now } }) := by
      rcases hv with ⟨l, rfl⟩ | ⟨l, rfl⟩ <;>
        simp [Redis.get_method, hget]
    refine ⟨{ r with db := { r.db with last_access := aset r.db.last_access src now } },
      ?_, rfl, rfl⟩
    simp [Redis.rename_method, Redis.getdel_method, harm]
  · intro r src dst s now hl he hne
    have hget := TtlHashMap.get_of_live r.db src now hl he
    have harm : r.get_method src now =
        (.ok (RedisElement.string s),
          { r with db := { r.db with last_access := aset r.db.last_access src now } }) := by
      simp [Redis.get_method, hget]
    refine ⟨⟨TtlHashMap.insert
        (TtlHashMap.remove ⟨r.db.store, r.db.ttls, aset r.db.last_access src now⟩ src)
        dst (RedisElement.string s) now,
      r.subscribers, r.next_sink, r.sent⟩, ?_, ?_, ?_, ?_, ?_⟩
    · simp [Redis.rename_method, Redis.getdel_method, harm, Redis.set_method,
        RedisElement.toDisplay]
    · rw [TtlHashMap.alookup_insert_store_ne _ _ _ (fun h => hne h.symm)]
      simp only [TtlHashMap.remove]
      exact alookup_aerase_self _ _
    · exact TtlHashMap.alookup_insert_store_self _ _ _ _
    · exact TtlHashMap.alookup_insert_ttls_self _ _ _ _
    · exact TtlHashMap.alookup_insert_la_self _ _ _ _
  · intro r src dst now hl ht
    have hget := TtlHashMap.get_of_absent r.db src now hl ht
    have harm : r.get_method src now = (.ok RedisElement.nil, r) := by
      simp [Redis.get_method, hget]
    refine ⟨{ r with db := r.db.insert dst (RedisElement.string "(nil)") now }, ?_, ?_, ?_⟩
    · simp [Redis.rename_method, Redis.getdel_method, harm, Redis.set_method,
        RedisElement.toDisplay]
    · exact TtlHashMap.alookup_insert_store_self _ _ _ _
    · exact TtlHashMap.alookup_insert_ttls_self _ _ _ _

/-- C10 witness: the string arm of the amended rename semantics evaluated at
a concrete state. -/
theorem C10_witness :
    alookup (⟨⟨[("a", RedisElement.string "x")], [], [("a", 0)]⟩, [], 0, []⟩ : Redis).db.store
        "a" = some (RedisElement.string "x") ∧
    (⟨⟨[("a", RedisElement.string "x")], [], [("a", 0)]⟩, [], 0, []⟩ : Redis).db.expired
        "a" 5 = false ∧
    (∃ r' : Redis,
      (⟨⟨[("a", RedisElement.string "x")], [], [("a", 0)]⟩, [], 0, []⟩ :
        Redis).rename_method "a" "b" 5 = (.ok (.normal (.string "Ok")), r') ∧
      alookup r'.db.store "a" = none ∧
      alookup r'.db.store "b" = some (RedisElement.string "x") ∧
      alookup r'.db.ttls "b" = none ∧
      alookup r'.db.last_access "b" = some 5) :=
  ⟨by decide, by decide,
    C10_rename_semantics.2.1 ⟨⟨[("a", RedisElement.string "x")], [], [("a", 0)]⟩, [], 0, []⟩
      "a" "b" "x" 5 (by decide) (by decide) (by decide)⟩

/-- C5 counterexample: `LPOP k 1` on the live list ["a","b"] pops exactly one
element but replies with the plain string "a" — the claim requires a
one-element list reply whenever the count is explicit. -/
theorem C5_counterexample :
    Redis.execute ⟨⟨[("k", RedisElement.list ["a", "b"])], [], [("k", 0)]⟩, [], 0, []⟩
      (Command.lpop "k" 1) 5 =
      some (.ok (.normal (.string "a")),
        ⟨⟨[("k", RedisElement.list ["b"])], [], [("k", 5)]⟩, [], 0, []⟩) := rfl

namespace Redis

theorem popReply_take (l : List String) (q : Nat) (hq : q ≤ l.length) :
    popReply (l.take q) = .ok (.normal (
      if q = 1 then .string (l.headD "")
      else if 0 < q then .list (l.take q)
      else .nil)) := by
  unfold popReply
  have hlen : (l.take q).length = q := by
    rw [List.length_take]
    omega
  rw [hlen]
  by_cases h1 : q = 1
  · subst h1
    have hhead : (l.take 1).head? = l.head? := by
      cases l with
      | nil => simp at hq
      | cons a t => simp
    simp [List.headD_eq_head?, hhead]
  · by_cases h0 : 0 < q
    · simp [h1, h0]
    · have hz : q = 0 := by omega
      subst hz
      simp

end Redis

/-- C5 (amended): for `lpop`/`rpop` on a live list key: `count = 0` pops one
element from the head (resp. tail) of a **non-empty** list and returns it as
a plain string (on an empty stored list the `unwrap` panics instead — see the
C3 theorem); `count ≥ 1` pops `min count len` elements from the head
(resp. tail) and the reply is a plain string when exactly one element is
popped, a list when two or more are, and nil when none are; in every case
the key remains present, holding the (possibly empty) remainder. -/
theorem C5_pop_semantics :
    (∀ (r : Redis) (key x : String) (xs : List String) (now : Nat),
      alookup r.db.store key = some (RedisElement.list (x :: xs)) →
      r.db.expired key now = false →
      ∃ r' : Redis,
        r.lpop_method key 0 now = some (.ok (.normal (.string x)), r') ∧
        alookup r'.db.store key = some (RedisElement.list xs)) ∧
    (∀ (r : Redis) (key : String) (l : List String) (count now : Nat),
      alookup r.db.store key = some (RedisElement.list l) →
      r.db.expired key now = false →
      1 ≤ count →
      ∃ r' : Redis,
        r.lpop_method key count now = some (.ok (.normal (
          if min count l.length = 1 then .string (l.headD "")
          else if 0 < min count l.length then .list (l.take (min count l.length))
          else .nil)), r') ∧
        alookup r'.db.store key =
          some (RedisElement.list (l.drop (min count l.length)))) ∧
    (∀ (r : Redis) (key x : String) (xs : List String) (now : Nat),
      alookup r.db.store key = some (RedisElement.list (xs ++ [x])) →
      r.db.expired key now = false →
      ∃ r' : Redis,
        r.rpop_method key 0 now = some (.ok (.normal (.string x)), r') ∧
        alookup r'.db.store key = some (RedisElement.list xs)) ∧
    (∀ (r : Redis) (key : String) (l : List String) (count now : Nat),
      alookup r.db.store key = some (RedisElement.list l) →
      r.db.expired key now = false →
      1 ≤ count →
      ∃ r' : Redis,
        r.rpop_method key count now = some (.ok (.normal (
          if min count l.length = 1 then .string (l.reverse.headD "")
          else if 0 < min count l.length then .list (l.reverse.take (min count l.length))
          else .nil)), r') ∧
        alookup r'.db.store key =
          some (RedisElement.list ((l.reverse.drop (min count l.length)).reverse))) := by
  refine ⟨?_, ?_, ?_, ?_⟩
  · intro r key x xs now hl he
    have hget := TtlHashMap.get_of_live r.db key now hl he
    refine ⟨⟨TtlHashMap.insert ⟨r.db.store, r.db.ttls, aset r.db.last_access key now⟩
        key (RedisElement.list xs) now, r.subscribers, r.next_sink, r.sent⟩, ?_, ?_⟩
    · simp [Redis.lpop_method, TtlHashMap.get_mut, hget, Redis.popReply]
    · exact TtlHashMap.alookup_insert_store_self _ _ _ _
  · intro r key l count now hl he hc
    have hget := TtlHashMap.get_of_live r.db key now hl he
    have hc0 : ¬ (count = 0) := by omega
    have hqty : (if count ≥ l.length then l.length else count) = min count l.length := by
      by_cases hcl : count ≥ l.length
      · rw [if_pos hcl]
        omega
      · rw [if_neg hcl]
        omega
    refine ⟨⟨TtlHashMap.insert ⟨r.db.store, r.db.ttls, aset r.db.last_access key now⟩
        key (RedisElement.list (l.drop (min count l.length))) now,
      r.subscribers, r.next_sink, r.sent⟩, ?_, ?_⟩
    · simp only [Redis.lpop_method, TtlHashMap.get_mut, hget, hc0, if_false, hqty]
      rw [Redis.popReply_take l (min count l.length) (Nat.min_le_right _ _)]
    · exact TtlHashMap.alookup_insert_store_self _ _ _ _
  · intro r key x xs now hl he
    have hget := TtlHashMap.get_of_live r.db key now hl he
    refine ⟨⟨TtlHashMap.insert ⟨r.db.store, r.db.ttls, aset r.db.last_access key now⟩
        key (RedisElement.list xs) now, r.subscribers, r.next_sink, r.sent⟩, ?_, ?_⟩
    · simp [Redis.rpop_method, TtlHashMap.get_mut, hget, Redis.popReply]
    · exact TtlHashMap.alookup_insert_store_self _ _ _ _
  · intro r key l count now hl he hc
    have hget := TtlHashMap.get_of_live r.db key now hl he
    have hc0 : ¬ (count = 0) := by omega
    have hqty : (if count ≥ l.reverse.length then l.reverse.length else count) =
        min count l.length := by
      simp only [List.length_reverse]
      by_cases hcl : count ≥ l.length
      · rw [if_pos hcl]
        omega
      · rw [if_neg hcl]
        omega
    refine ⟨⟨TtlHashMap.insert ⟨r.db.store, r.db.ttls, aset r.db.last_access key now⟩
        key (RedisElement.list ((l.reverse.drop (min count l.length)).reverse)) now,
      r.subscribers, r.next_sink, r.sent⟩, ?_, ?_⟩
    · simp only [Redis.rpop_method, TtlHashMap.get_mut, hget, hc0, if_false, hqty]
      rw [Redis.popReply_take l.reverse (min count l.length)
        (by simp only [List.length_reverse]; exact Nat.min_le_right _ _)]
    · exact TtlHashMap.alookup_insert_store_self _ _ _ _

/-- C5 witness: the lpop count arm evaluated with count 2 on ["a","b","c"]
(a two-element list reply) at a concrete state. -/
theorem C5_witness :
    alookup (⟨⟨[("k", RedisElement.list ["a", "b", "c"])], [], [("k", 0)]⟩, [], 0, []⟩ :
        Redis).db.store "k" = some (RedisElement.list ["a", "b", "c"]) ∧
    (⟨⟨[("k", RedisElement.list ["a", "b", "c"])], [], [("k", 0)]⟩, [], 0, []⟩ :
      Redis).db.expired "k" 5 = false ∧
    (1 : Nat) ≤ 2 ∧
    (∃ r' : Redis,
      (⟨⟨[("k", RedisElement.list ["a", "b", "c"])], [], [("k", 0)]⟩, [], 0, []⟩ :
        Redis).lpop_method "k" 2 5 = some (.ok (.normal (
          if min 2 (["a", "b", "c"] : List String).length = 1 then
            .string ((["a", "b", "c"] : List String).headD "")
          else if 0 < min 2 (["a", "b", "c"] : List String).length then
            .list ((["a", "b", "c"] : List String).take
              (min 2 (["a", "b", "c"] : List String).length))
          else .nil)), r') ∧
      alookup r'.db.store "k" = some (RedisElement.list
        ((["a", "b", "c"] : List String).drop
          (min 2 (["a", "b", "c"] : List String).length)))) :=
  ⟨by decide, by decide, by decide,
    C5_pop_semantics.2.1 ⟨⟨[("k", RedisElement.list ["a", "b", "c"])], [], [("k", 0)]⟩, [], 0, []⟩
      "k" ["a", "b", "c"] 2 5 (by decide) (by decide) (by decide)⟩

/-- C6 counterexample: key "k" holds the live list ["a"] with deadline 100
(`now = 50`).  The claim covers "the list and set writes", but `LSET k 0 b`
mutates the stored list in place through `get_mut`: the write succeeds and
the prior deadline **survives** (and remains 100 in the post-state). -/
theorem C6_counterexample :
    Redis.execute
      ⟨⟨[("k", RedisElement.list ["a"])], [("k", 100)], [("k", 0)]⟩, [], 0, []⟩
      (Command.lset "k" 0 "b") 50 =
      some (.ok (.normal (.string "Ok")),
        ⟨⟨[("k", RedisElement.list ["b"])], [("k", 100)], [("k", 50)]⟩, [], 0, []⟩) := rfl

namespace Redis

theorem mset_foldl_ttls (now : Nat) :
    ∀ (kvs : List (String × String)) (r : Redis) (k : String),
    (k ∈ kvs.map Prod.fst ∨ alookup r.db.ttls k = none) →
    alookup ((kvs.foldl (fun acc kv => (acc.set_method kv.1 kv.2 now).2) r)).db.ttls k =
      none := by
  intro kvs
  induction kvs with
  | nil =>
    intro r k h
    rcases h with h | h
    · simp at h
    · exact h
  | cons kv rest ih =>
    intro r k h
    simp only [List.foldl_cons]
    apply ih
    by_cases hd : k ∈ rest.map Prod.fst
    · exact Or.inl hd
    · right
      by_cases hk : kv.1 = k
      · rw [Redis.set_method]
        dsimp only
        rw [hk]
        exact TtlHashMap.alookup_insert_ttls_self _ _ _ _
      · rw [Redis.set_method]
        dsimp only
        rw [TtlHashMap.alookup_insert_ttls_ne _ _ _ hk]
        rcases h with h | h
        · simp only [List.map_cons, List.mem_cons] at h
          rcases h with h | h
          · exact absurd h.symm hk
          · exact absurd h hd
        · exact h

theorem mset_foldl_la (now : Nat) :
    ∀ (kvs : List (String × String)) (r : Redis) (k : String),
    (k ∈ kvs.map Prod.fst ∨ alookup r.db.last_access k = some now) →
    alookup
      ((kvs.foldl (fun acc kv => (acc.set_method kv.1 kv.2 now).2) r)).db.last_access k =
      some now := by
  intro kvs
  induction kvs with
  | nil =>
    intro r k h
    rcases h with h | h
    · simp at h
    · exact h
  | cons kv rest ih =>
    intro r k h
    simp only [List.foldl_cons]
    apply ih
    by_cases hd : k ∈ rest.map Prod.fst
    · exact Or.inl hd
    · right
      by_cases hk : kv.1 = k
      · rw [Redis.set_method]
        dsimp only
        rw [hk]
        exact TtlHashMap.alookup_insert_la_self _ _ _ _
      · rw [Redis.set_method]
        dsimp only
        rw [TtlHashMap.alookup_insert_la_ne _ _ _ hk]
        rcases h with h | h
        · simp only [List.map_cons, List.mem_cons] at h
          rcases h with h | h
          · exact absurd h.symm hk
          · exact absurd h hd
        · exact h

end Redis


/-- C6 (amended): every mutating write that re-inserts through
`TtlHashMap::insert` — set, mset, getset, incrby, append, lpush, rpush,
lpop, rpop, lrem, sadd, srem and the insert performed by copy — clears the
key's prior deadline (and, where stated, stamps last-access with now), so
the key is persistent afterwards.  The exception forced by the
counterexample: `lset` writes the element in place through `get_mut`, which
resets last-access but **preserves** the deadline. -/
theorem C6_mutating_writes_clear_deadline :
    (∀ (r : Redis) (k v : String) (now : Nat),
      alookup ((r.set_method k v now).2).db.ttls k = none ∧
      alookup ((r.set_method k v now).2).db.last_access k = some now) ∧
    (∀ (r : Redis) (kvs : List (String × String)) (k : String) (now : Nat),
      k ∈ kvs.map Prod.fst →
      alookup ((r.mset_method kvs now).2).db.ttls k = none ∧
      alookup ((r.mset_method kvs now).2).db.last_access k = some now) ∧
    (∀ (r r' : Redis) (k v : String) (resp : Response) (now : Nat),
      r.getset_method k v now = (.ok resp, r') →
      alookup r'.db.ttls k = none ∧ alookup r'.db.last_access k = some now) ∧
    (∀ (r r' : Redis) (k : String) (n : Int) (resp : Response) (now : Nat),
      r.incrby_method k n now = (.ok resp, r') →
      alookup r'.db.ttls k = none ∧ alookup r'.db.last_access k = some now) ∧
    (∀ (r r' : Redis) (k v : String) (resp : Response) (now : Nat),
      r.append_method k v now = (.ok resp, r') →
      alookup r'.db.ttls k = none ∧ alookup r'.db.last_access k = some now) ∧
    (∀ (r r' : Redis) (k : String) (vs : List String) (resp : Response) (now : Nat),
      r.lpush_method k vs now = (.ok resp, r') →
      alookup r'.db.ttls k = none ∧ alookup r'.db.last_access k = some now) ∧
    (∀ (r r' : Redis) (k : String) (vs : List String) (resp : Response) (now : Nat),
      r.rpush_method k vs now = (.ok resp, r') →
      alookup r'.db.ttls k = none ∧ alookup r'.db.last_access k = some now) ∧
    (∀ (r r' : Redis) (k : String) (l : List String) (count now : Nat)
        (res : Except String Response),
      alookup r.db.store k = some (RedisElement.list l) →
      r.db.expired k now = false →
      r.lpop_method k count now = some (res, r') →
      alookup r'.db.ttls k = none ∧ alookup r'.db.last_access k = some now) ∧
    (∀ (r r' : Redis) (k : String) (l : List String) (count now : Nat)
        (res : Except String Response),
      alookup r.db.store k = some (RedisElement.list l) →
      r.db.expired k now = false →
      r.rpop_method k count now = some (res, r') →
      alookup r'.db.ttls k = none ∧ alookup r'.db.last_access k = some now) ∧
    (∀ (r r' : Redis) (k : String) (count : Int) (e : String) (l : List String) (now : Nat)
        (res : Except String Response),
      alookup r.db.store k = some (RedisElement.list l) →
      r.db.expired k now = false →
      r.lrem_method k count e now = (res, r') →
      alookup r'.db.ttls k = none ∧ alookup r'.db.last_access k = some now) ∧
    (∀ (r r' : Redis) (k : String) (vs : List String) (resp : Response) (now : Nat),
      r.sadd_method k vs now = (.ok resp, r') →
      alookup r'.db.ttls k = none ∧ alookup r'.db.last_access k = some now) ∧
    (∀ (r r' : Redis) (k : String) (vs : List String) (l : List String) (now : Nat)
        (res : Except String Response),
      alookup r.db.store k = some (RedisElement.set l) →
      r.db.expired k now = false →
      r.srem_method k vs now = (res, r') →
      alookup r'.db.ttls k = none ∧ alookup r'.db.last_access k = some now) ∧
    (∀ (r r' : Redis) (o d : String) (now : Nat),
      r.copy_method o d now = (.normal (.string "1"), r') →
      alookup r'.db.ttls d = none ∧ alookup r'.db.last_access d = some now) ∧
    (∀ (r : Redis) (k : String) (index : Int) (e : String) (l : List String) (now : Nat),
      alookup r.db.store k = some (RedisElement.list l) →
      r.db.expired k now = false →
      0 ≤ (if index < 0 then index + l.length else index) →
      (if index < 0 then index + l.length else index) < l.length →
      ∃ r' : Redis,
        r.lset_method k index e now = some (.ok (.normal (.string "Ok")), r') ∧
        r'.db.ttls = r.db.ttls ∧
        alookup r'.db.last_access k = some now) := by
  have hpost : ∀ (m : TtlHashMap String RedisElement) (k : String) (v : RedisElement)
      (now : Nat) (subs : List (String × List Nat)) (ns : Nat)
      (sent : List (Nat × RedisElement)),
      alookup (Redis.db ⟨m.insert k v now, subs, ns, sent⟩).ttls k = none ∧
      alookup (Redis.db ⟨m.insert k v now, subs, ns, sent⟩).last_access k = some now :=
    fun m k v now _ _ _ => ⟨TtlHashMap.alookup_insert_ttls_self m k v now,
      TtlHashMap.alookup_insert_la_self m k v now⟩
  refine ⟨?_, ?_, ?_, ?_, ?_, ?_, ?_, ?_, ?_, ?_, ?_, ?_, ?_, ?_⟩
  · intro r k v now
    exact Redis.ttls_after_set r k v now
  · intro r kvs k now hmem
    unfold Redis.mset_method
    exact ⟨Redis.mset_foldl_ttls now kvs r k (Or.inl hmem),
      Redis.mset_foldl_la now kvs r k (Or.inl hmem)⟩
  · intro r r' k v resp now h
    unfold Redis.getset_method at h
    rcases hg : r.get_method k now with ⟨res, r1⟩
    rw [hg] at h
    cases res with
    | ok ret =>
      rcases hs : r1.set_method k v now with ⟨s1, r2⟩
      simp only [hs, Prod.mk.injEq] at h
      have hset := Redis.ttls_after_set r1 k v now
      rw [hs] at hset
      rw [← h.2]
      exact hset
    | error e => simp at h
  · intro r r' k n resp now h
    unfold Redis.incrby_method at h
    rcases hg : r.get_method k now with ⟨res, r1⟩
    rw [hg] at h
    cases res with
    | ok ret =>
      cases ret with
      | string s =>
        cases hp : parseI32 s with
        | none =>
          simp only [hp] at h
          simp at h
        | some nv =>
          rcases hs : r1.set_method k (toString (wrap32 (nv + n))) now with ⟨s1, r2⟩
          simp only [hp, hs, Prod.mk.injEq] at h
          have hset := Redis.ttls_after_set r1 k (toString (wrap32 (nv + n))) now
          rw [hs] at hset
          rw [← h.2]
          exact hset
      | nil =>
        rcases hs : r1.set_method k (toString n) now with ⟨s1, r2⟩
        simp only [hs, Prod.mk.injEq] at h
        have hset := Redis.ttls_after_set r1 k (toString n) now
        rw [hs] at hset
        rw [← h.2]
        exact hset
      | list l => simp at h
      | set l => simp at h
    | error e =>
      rcases hs : r1.set_method k (toString n) now with ⟨s1, r2⟩
      simp only [hs, Prod.mk.injEq] at h
      have hset := Redis.ttls_after_set r1 k (toString n) now
      rw [hs] at hset
      rw [← h.2]
      exact hset
  · intro r r' k v resp now h
    unfold Redis.append_method at h
    rcases hg : r.get_method k now with ⟨res, r1⟩
    rw [hg] at h
    cases res with
    | ok ret =>
      cases ret with
      | string s =>
        rcases hs : r1.set_method k (s ++ v) now with ⟨s1, r2⟩
        simp only [hs, Prod.mk.injEq] at h
        have hset := Redis.ttls_after_set r1 k (s ++ v) now
        rw [hs] at hset
        rw [← h.2]
        exact hset
      | nil =>
        rcases hs : r1.set_method k v now with ⟨s1, r2⟩
        simp only [hs, Prod.mk.injEq] at h
        have hset := Redis.ttls_after_set r1 k v now
        rw [hs] at hset
        rw [← h.2]
        exact hset
      | list l => simp at h
      | set l => simp at h
    | error e => simp at h
  · intro r r' k vs resp now h
    unfold Redis.lpush_method at h
    rcases hg : r.db.get_mut k now with ⟨vo, m1⟩
    rw [hg] at h
    cases vo with
    | none =>
      simp only [Prod.mk.injEq] at h
      rw [← h.2]
      exact hpost m1 k _ now r.subscribers r.next_sink r.sent
    | some re =>
      cases re with
      | list l =>
        simp only [Prod.mk.injEq] at h
        rw [← h.2]
        exact hpost m1 k _ now r.subscribers r.next_sink r.sent
      | string s => simp at h
      | set l => simp at h
      | nil => simp at h
  · intro r r' k vs resp now h
    unfold Redis.rpush_method at h
    rcases hg : r.db.get_mut k now with ⟨vo, m1⟩
    rw [hg] at h
    cases vo with
    | none =>
      simp only [Prod.mk.injEq] at h
      rw [← h.2]
      exact hpost m1 k _ now r.subscribers r.next_sink r.sent
    | some re =>
      cases re with
      | list l =>
        simp only [Prod.mk.injEq] at h
        rw [← h.2]
        exact hpost m1 k _ now r.subscribers r.next_sink r.sent
      | string s => simp at h
      | set l => simp at h
      | nil => simp at h
  · intro r r' k l count now res hl he h
    have hget := TtlHashMap.get_of_live r.db k now hl he
    simp only [Redis.lpop_method, TtlHashMap.get_mut, hget] at h
    by_cases hc : count = 0
    · subst hc
      cases l with
      | nil => simp at h
      | cons x xs =>
        simp only [if_true, Option.some.injEq, Prod.mk.injEq] at h
        rw [← h.2]
        exact hpost _ k _ now r.subscribers r.next_sink r.sent
    · simp only [hc, if_false, Option.some.injEq, Prod.mk.injEq] at h
      rw [← h.2]
      exact hpost _ k _ now r.subscribers r.next_sink r.sent
  · intro r r' k l count now res hl he h
    have hget := TtlHashMap.get_of_live r.db k now hl he
    simp only [Redis.rpop_method, TtlHashMap.get_mut, hget] at h
    by_cases hc : count = 0
    · subst hc
      rcases hlr : l.reverse with _ | ⟨x, xs⟩
      · simp only [hlr] at h
        simp at h
      · simp only [hlr, if_true, Option.some.injEq, Prod.mk.injEq] at h
        rw [← h.2]
        exact hpost _ k _ now r.subscribers r.next_sink r.sent
    · simp only [hc, if_false, Option.some.injEq, Prod.mk.injEq] at h
      rw [← h.2]
      exact hpost _ k _ now r.subscribers r.next_sink r.sent
  · intro r r' k count e l now res hl he h
    have hget := TtlHashMap.get_of_live r.db k now hl he
    simp only [Redis.lrem_method, TtlHashMap.get_mut, hget] at h
    by_cases hp0 : 0 < count
    · simp only [hp0, if_true, Prod.mk.injEq] at h
      rw [← h.2]
      exact hpost _ k _ now r.subscribers r.next_sink r.sent
    · by_cases hneg : count < 0
      · simp only [hp0, hneg, if_false, if_true, Prod.mk.injEq] at h
        rw [← h.2]
        exact hpost _ k _ now r.subscribers r.next_sink r.sent
      · simp only [hp0, hneg, if_false, Prod.mk.injEq] at h
        rw [← h.2]
        exact hpost _ k _ now r.subscribers r.next_sink r.sent
  · intro r r' k vs resp now h
    unfold Redis.sadd_method at h
    rcases hg : r.db.get_mut k now with ⟨vo, m1⟩
    rw [hg] at h
    cases vo with
    | none =>
      simp only [Prod.mk.injEq] at h
      rw [← h.2]
      exact hpost m1 k _ now r.subscribers r.next_sink r.sent
    | some re =>
      cases re with
      | set l =>
        simp only [Prod.mk.injEq] at h
        rw [← h.2]
        exact hpost m1 k _ now r.subscribers r.next_sink r.sent
      | string s => simp at h
      | list l => simp at h
      | nil => simp at h
  · intro r r' k vs l now res hl he h
    have hget := TtlHashMap.get_of_live r.db k now hl he
    simp only [Redis.srem_method, TtlHashMap.get_mut, hget, Prod.mk.injEq] at h
    rw [← h.2]
    exact hpost _ k _ now r.subscribers r.next_sink r.sent
  · intro r r' o d now h
    unfold Redis.copy_method at h
    rcases hg1 : r.db.get o now with ⟨vo, m1⟩
    rw [hg1] at h
    cases vo with
    | none =>
      simp only [Prod.mk.injEq, Response.normal.injEq, RedisElement.string.injEq] at h
      exact absurd h.1 (by decide)
    | some v =>
      dsimp only at h
      rcases hg2 : m1.get d now with ⟨vd, m2⟩
      rw [hg2] at h
      cases vd with
      | some w =>
        simp only [Prod.mk.injEq, Response.normal.injEq, RedisElement.string.injEq] at h
        exact absurd h.1 (by decide)
      | none =>
        simp only [Prod.mk.injEq] at h
        rw [← h.2]
        exact hpost m2 d _ now r.subscribers r.next_sink r.sent
  · intro r k index e l now hl he h0 hlen
    have hget := TtlHashMap.get_of_live r.db k now hl he
    have hc1 : ¬ ((if index < 0 then index + (l.length : Int) else index) < 0 ∨
        (if index < 0 then index + (l.length : Int) else index) > (l.length : Int)) := by
      push_neg
      constructor
      · exact h0
      · omega
    have hc2 : ¬ (if index < 0 then index + (l.length : Int) else index) =
        (l.length : Int) := by omega
    refine ⟨⟨⟨aset r.db.store k (RedisElement.list
        (l.set (if index < 0 then index + (l.length : Int) else index).toNat e)),
      r.db.ttls, aset r.db.last_access k now⟩,
      r.subscribers, r.next_sink, r.sent⟩, ?_, rfl, ?_⟩
    · simp only [Redis.lset_method, TtlHashMap.get_mut, hget, hc1, if_false, hc2]
    · exact alookup_aset_self _ _ _

/-- C6 witness: the getset conjunct of the amended claim evaluated on a key
holding the numeric string "1" with deadline 77 (now = 5): the write clears
the deadline and stamps last-access. -/
theorem C6_witness :
    (⟨⟨[("k", RedisElement.string "1")], [("k", 77)], [("k", 0)]⟩, [], 0, []⟩ :
        Redis).getset_method "k" "v" 5 =
      (.ok (.normal (.string "1")),
        ⟨⟨[("k", RedisElement.string "v")], [], [("k", 5)]⟩, [], 0, []⟩) ∧
    (alookup (⟨⟨[("k", RedisElement.string "v")], [], [("k", 5)]⟩, [], 0, []⟩ :
        Redis).db.ttls "k" = none ∧
      alookup (⟨⟨[("k", RedisElement.string "v")], [], [("k", 5)]⟩, [], 0, []⟩ :
        Redis).db.last_access "k" = some 5) :=
  ⟨rfl,
    C6_mutating_writes_clear_deadline.2.2.1
      ⟨⟨[("k", RedisElement.string "1")], [("k", 77)], [("k", 0)]⟩, [], 0, []⟩
      ⟨⟨[("k", RedisElement.string "v")], [], [("k", 5)]⟩, [], 0, []⟩
      "k" "v" (.normal (.string "1")) 5 rfl⟩
